import Mathlib

/-!
Verification of the MoTeC-Cleanup telemetry curation engine.

Strings are modelled as lists of natural-number code points (`CStr`), rational
numbers stand in for Python floats (arithmetic is treated exactly), and the
filesystem is modelled as an explicit list of entries.  All definitions are
translated from `src/scan.py` and `src/config_editor.py`.
-/

set_option maxRecDepth 4000

abbrev CStr := List ℕ

/-! ## Basic string machinery -/

/-- Model of Python `str.split(sep)` on a single-character separator. -/
def splitStr (sep : ℕ) : CStr → List CStr
  | [] => [[]]
  | c :: cs =>
    if c = sep then [] :: splitStr sep cs
    else
      match splitStr sep cs with
      | [] => [[c]]
      | p :: ps => (c :: p) :: ps

/-- Model of Python `sep.join(parts)` on a single-character separator. -/
def joinStr (sep : ℕ) : List CStr → CStr
  | [] => []
  | [p] => p
  | p :: q :: ps => p ++ sep :: joinStr sep (q :: ps)

/-- Model of Python `name.rsplit(sep, 1)[0]` for `sep = '.'` (code point 46):
everything before the last dot, or the whole string when there is no dot. -/
def dropExt (s : CStr) : CStr :=
  match s.reverse.dropWhile (fun c => !(c == 46)) with
  | [] => s
  | _ :: t => t.reverse

/-- First index whose element satisfies the predicate (Python linear scan with
`break`). -/
def findIdxS (p : α → Bool) : List α → Option ℕ
  | [] => none
  | x :: xs => if p x then some 0 else (findIdxS p xs).map (· + 1)

/-- Python indexing `l[n]` returning `none` in place of `IndexError`. -/
def nthStr (l : List α) (n : ℕ) : Option α :=
  (l.drop n).head?

/-- ASCII lower-casing, modelling Python `str.lower()` on ASCII input. -/
def lowerStr (s : CStr) : CStr :=
  s.map (fun c => if 65 ≤ c ∧ c ≤ 90 then c + 32 else c)

/-- Decimal digits (as code points) of a natural number, most significant
first; models Python `f"{n}"`. -/
def natToDigits (n : ℕ) : List ℕ :=
  if _h : n < 10 then [48 + n]
  else natToDigits (n / 10) ++ [48 + n % 10]
decreasing_by exact Nat.div_lt_self (by omega) (by omega)

/-- Numeric value of a string of decimal digit code points, modelling Python
`int` on an all-digit string. -/
def natOfDigits (s : CStr) : ℕ :=
  s.foldl (fun a c => 10 * a + (c - 48)) 0

/-- Zero-pad a decimal rendering to 3 characters (the fractional part of
`f"{x:.3f}"`). -/
def pad3 (n : ℕ) : CStr :=
  List.replicate (3 - (natToDigits n).length) 48 ++ natToDigits n

def isDigitN (c : ℕ) : Bool := decide (48 ≤ c ∧ c ≤ 57)

def isDigitDot (c : ℕ) : Bool := isDigitN c || c == 46

/-- Model of Python `round` on an exact rational: round half to even. -/
def pyRound (q : ℚ) : ℤ :=
  if q - ⌊q⌋ < 1 / 2 then ⌊q⌋
  else if 1 / 2 < q - ⌊q⌋ then ⌊q⌋ + 1
  else if ⌊q⌋ % 2 = 0 then ⌊q⌋ else ⌊q⌋ + 1

/-! ## String constants -/

def dryS : CStr := "dry".toList.map Char.toNat

def wetS : CStr := "wet".toList.map Char.toNat

def extLd : CStr := ".ld".toList.map Char.toNat

def extLdx : CStr := ".ldx".toList.map Char.toNat

/-! ## Lap classification (`scan.py`, `classify_lap`) -/

inductive LapCond
  | dry
  | wet
  | gap
deriving DecidableEq

/-- Translation of `classify_lap(lap_time, dry_benchmark, wet_benchmark,
tolerance)`; `none` models the Python return value `None` (invalid lap). -/
def classify_lap (lap dryB wetB tol : ℚ) : Option LapCond :=
  let dryMin := dryB * (1 - tol)
  let dryMax := dryB * (1 + tol)
  let wetMin := wetB * (1 - tol)
  let wetMax := wetB * (1 + tol)
  if dryMin ≤ lap ∧ lap ≤ dryMax then some .dry
  else if wetMin ≤ lap ∧ lap ≤ wetMax then some .wet
  else if dryMax < wetMin ∧ dryMax < lap ∧ lap < wetMin then some .gap
  else none

/-! ## Benchmark tolerance (`config_editor.py`) -/

/-- Translation of `calculate_max_safe_tolerance(dry_time, wet_time)`;
`Option` inputs model the Python `None` checks. -/
def calculate_max_safe_tolerance (dryT wetT : Option ℚ) : Option ℚ :=
  match dryT, wetT with
  | some d, some w => if d ≥ w then none else some ((w - d) / (w + d))
  | _, _ => none

/-- Translation of `recommend_tolerance(dry_time, wet_time, margin=0.02)`:
subtract the margin from the maximum safe tolerance, clamp to [0.05, 0.30],
and otherwise round to the nearest 0.01 (`round(x * 100) / 100`). -/
def recommend_tolerance (dryT wetT : Option ℚ) (margin : ℚ) : Option ℚ :=
  match calculate_max_safe_tolerance dryT wetT with
  | none => none
  | some maxTol =>
    let recommended := maxTol - margin
    if recommended < 1 / 20 then some (1 / 20)
    else if recommended > 3 / 10 then some (3 / 10)
    else some ((pyRound (recommended * 100) : ℚ) / 100)


/-! ## Filename generation and parsing (`scan.py`) -/

/-- Decimal rendering of an integer, modelling Python `f"{i}"`. -/
def intToDigits (i : ℤ) : CStr :=
  if i < 0 then 45 :: natToDigits i.natAbs else natToDigits i.toNat

/-- Translation of `format_lap_time_filename(seconds)`: the string
`f"{minutes}m{secs:.3f}s"` where `minutes = int(seconds // 60)` and
`secs = seconds % 60`; the 3-decimal float formatting rounds to the nearest
thousandth. -/
def format_lap_time_filename (seconds : ℚ) : CStr :=
  let minutes : ℤ := ⌊seconds / 60⌋
  let secs : ℚ := seconds - 60 * minutes
  let ms : ℕ := (pyRound (secs * 1000)).toNat
  intToDigits minutes ++ 109 :: (natToDigits (ms / 1000) ++ 46 :: pad3 (ms % 1000)) ++ [115]

/-- Translation of the rank-ordinal table `{1: "1st", 2: "2nd", 3: "3rd"}`
with default `f"{rank}th"`. -/
def rankSuffix (rank : ℕ) : CStr :=
  if rank = 1 then [49, 115, 116]
  else if rank = 2 then [50, 110, 100]
  else if rank = 3 then [51, 114, 100]
  else natToDigits rank ++ [116, 104]

/-- Translation of `generate_pb_filename(track, car, condition, rank,
lap_time, date_str)`; 95 is `_`, 46 is `.`, 45 is `-`, and the date has its
dots replaced by dashes. -/
def generate_pb_filename (track car condition : CStr) (rank : ℕ)
    (lap_time : ℚ) (date_str : CStr) : CStr :=
  track ++ 95 :: car ++ 95 :: condition ++ 95 :: rankSuffix rank ++ 95 ::
    format_lap_time_filename lap_time ++ 95 ::
    date_str.map (fun c => if c = 46 then 45 else c) ++ extLd

/-- The scan for the condition marker: `part.lower() in ['dry', 'wet']`. -/
def condPred (p : CStr) : Bool := lowerStr p == dryS || lowerStr p == wetS

/-- Translation of `int(rank_str[0])`: the leading character must exist and
be a digit, otherwise `IndexError`/`ValueError` yield `None`. -/
def parseRank (rs : CStr) : Option ℕ :=
  match rs with
  | [] => none
  | c :: _ => if 48 ≤ c ∧ c ≤ 57 then some (c - 48) else none

/-- Model of Python `float` applied to a string of digits and dots, as
produced by the `([\d.]+)` regex group (`ValueError` yields `none`). -/
def parseFloat (s : CStr) : Option ℚ :=
  match splitStr 46 s with
  | [ip] => if ip = [] then none else some ((natOfDigits ip : ℚ))
  | [ip, fp] =>
    if ip = [] ∧ fp = [] then none
    else some ((natOfDigits ip : ℚ) + (natOfDigits fp : ℚ) / (10 : ℚ) ^ fp.length)
  | _ => none

/-- The tail of the lap-time regex `re.match(r'(\d+)m([\d.]+)s', ...)` after
the literal `m`: the `([\d.]+)s` part, producing `minutes * 60 +
float(seconds)`; 115 is `s`. -/
def matchAfterM (d1 rest : CStr) : Option ℚ :=
  let d2 := rest.takeWhile isDigitDot
  if d2 = [] then none
  else
    match rest.drop d2.length with
    | [] => none
    | c2 :: _ =>
      if c2 = 115 then
        (parseFloat d2).map (fun sec => (natOfDigits d1 : ℚ) * 60 + sec)
      else none

/-- Model of `re.match(r'(\d+)m([\d.]+)s', lap_time_str)` followed by
`minutes * 60 + seconds`; 109 is `m`. -/
def matchLapStr (s : CStr) : Option ℚ :=
  let d1 := s.takeWhile isDigitN
  if d1 = [] then none
  else
    match s.drop d1.length with
    | [] => none
    | c :: rest => if c = 109 then matchAfterM d1 rest else none

structure PBInfo where
  track : CStr
  car : CStr
  cond : CStr
  rank : ℕ
  lap : ℚ
  date : CStr
deriving DecidableEq

/-- The stage of `parse_pb_filename` after the condition index is found:
recover track, car, condition, rank, lap time and date (Python
`IndexError`/`ValueError` model as `none`). -/
def parseAfterIdx (parts : List CStr) (i : ℕ) : Option PBInfo :=
  match nthStr parts i with
  | none => none
  | some condP =>
    match nthStr parts (i + 1) with
    | none => none
    | some rankStr =>
      match parseRank rankStr with
      | none => none
      | some rank =>
        match nthStr parts (i + 2) with
        | none => none
        | some lapStr =>
          match matchLapStr lapStr with
          | none => none
          | some lap =>
            some ⟨parts.headD [], joinStr 95 ((parts.drop 1).take (i - 1)),
              lowerStr condP, rank, lap, parts.getLastD []⟩

/-- Translation of `parse_pb_filename(filename)`: strip the extension, split
on underscores, require at least 6 parts, locate the first `dry`/`wet` part,
and recover track, car, condition, rank, lap time and date. -/
def parse_pb_filename (filename : CStr) : Option PBInfo :=
  let parts := splitStr 95 (dropExt filename)
  if parts.length < 6 then none
  else
    match findIdxS condPred parts with
    | none => none
    | some i => parseAfterIdx parts i

/-! ## Per-file classification (`scan.py`, `classify_laps`) -/

/-- Python `min` over a list of lap times (`none` for the empty list). -/
def minQ? : List ℚ → Option ℚ
  | [] => none
  | x :: xs =>
    match minQ? xs with
    | none => some x
    | some m => some (min x m)

/-- Translation of `classify_laps(lap_times, dry, wet, tol)`: partition each
lap by its classification in input order, then return the fastest dry lap,
the fastest wet lap and the list of gap laps. -/
def classify_laps (lap_times : List ℚ) (dryB wetB tol : ℚ) :
    Option ℚ × Option ℚ × List ℚ :=
  let t := lap_times.foldl
    (fun (acc : List ℚ × List ℚ × List ℚ) lap =>
      match classify_lap lap dryB wetB tol with
      | some .dry => (acc.1 ++ [lap], acc.2.1, acc.2.2)
      | some .wet => (acc.1, acc.2.1 ++ [lap], acc.2.2)
      | some .gap => (acc.1, acc.2.1, acc.2.2 ++ [lap])
      | none => acc)
    ([], [], [])
  (minQ? t.1, minQ? t.2.1, t.2.2)

/-! ## PB curation (`scan.py`, `scan_telemetry`) -/

structure LapEntry where
  lap : ℚ
  src : ℕ
  date : CStr
deriving DecidableEq

structure Slot where
  src : ℕ
  filename : CStr
  track : CStr
  car : CStr
  cond : CStr
  rank : ℕ
  lap : ℚ
deriving DecidableEq

structure TCGroup where
  track : CStr
  car : CStr
  dry : List LapEntry
  wet : List LapEntry
  gap : List LapEntry
deriving DecidableEq

/-- Stable insertion for an ascending sort keyed on `f` alone: the new
element goes after every earlier element whose key is not larger. -/
def insKey (f : α → ℚ) (e : α) : List α → List α
  | [] => [e]
  | x :: xs => if f x < f e then x :: insKey f e xs else e :: x :: xs

/-- Stable ascending sort keyed on `f` alone, modelling Python
`list.sort(key=lambda x: x[0])`. -/
def sortKey (f : α → ℚ) : List α → List α
  | [] => []
  | e :: es => insKey f e (sortKey f es)

/-- Python `enumerate(laps, 1)`. -/
def rankFrom (r : ℕ) : List α → List (ℕ × α)
  | [] => []
  | e :: es => (r, e) :: rankFrom (r + 1) es

def mkSlot (track car cond : CStr) (p : ℕ × LapEntry) : Slot :=
  ⟨p.2.src, generate_pb_filename track car cond p.1 p.2.lap p.2.date,
    track, car, cond, p.1, p.2.lap⟩

/-- Top-N personal-best slots for one (track, car, condition): sort the
condition's laps ascending by duration with the stable sort, take the first
`n`, and attach 1-based ranks and generated filenames (`scan_telemetry`
lines 975-987). -/
def pbSlots (track car cond : CStr) (n : ℕ) (laps : List LapEntry) : List Slot :=
  (rankFrom 1 ((sortKey LapEntry.lap laps).take n)).map (mkSlot track car cond)

/-- The full `files_to_pb` list: for each (track, car) group in insertion
order, the dry slots (by rank) then the wet slots (by rank). -/
def buildSlots (n : ℕ) (data : List TCGroup) : List Slot :=
  (data.map (fun g =>
    pbSlots g.track g.car dryS n g.dry ++ pbSlots g.track g.car wetS n g.wet)).flatten

structure FileRec where
  src : ℕ
  track : CStr
  car : CStr
  date : CStr
  laps : List ℚ
deriving DecidableEq

/-- Python truthiness of `best_dry` / `best_wet` in `if best_dry:`: both
`None` and `0.0` are falsy. -/
def truthyQ (o : Option ℚ) : List ℚ :=
  match o with
  | some t => if t = 0 then [] else [t]
  | none => []

/-- `defaultdict` update: extend the unique existing (track, car) group or
create a fresh one at the end. -/
def addEntry (track car : CStr) (upd : TCGroup → TCGroup) :
    List TCGroup → List TCGroup
  | [] => [upd ⟨track, car, [], [], []⟩]
  | g :: gs =>
    if g.track == track && g.car == car then upd g :: gs
    else g :: addEntry track car upd gs

/-- The dry-bucket contribution of one file: its best dry lap when truthy
(`if best_dry:`), as a lap entry carrying the file's source and date. -/
def dryAdd (bench : CStr → CStr → ℚ × ℚ × ℚ) (fr : FileRec) : List LapEntry :=
  (truthyQ (classify_laps fr.laps (bench fr.track fr.car).1
    (bench fr.track fr.car).2.1 (bench fr.track fr.car).2.2).1).map
    (fun t => ⟨t, fr.src, fr.date⟩)

/-- The wet-bucket contribution of one file (`if best_wet:`). -/
def wetAdd (bench : CStr → CStr → ℚ × ℚ × ℚ) (fr : FileRec) : List LapEntry :=
  (truthyQ (classify_laps fr.laps (bench fr.track fr.car).1
    (bench fr.track fr.car).2.1 (bench fr.track fr.car).2.2).2.1).map
    (fun t => ⟨t, fr.src, fr.date⟩)

/-- The gap-bucket contribution of one file: every gap lap. -/
def gapAdd (bench : CStr → CStr → ℚ × ℚ × ℚ) (fr : FileRec) : List LapEntry :=
  ((classify_laps fr.laps (bench fr.track fr.car).1
    (bench fr.track fr.car).2.1 (bench fr.track fr.car).2.2).2.2).map
    (fun t => ⟨t, fr.src, fr.date⟩)

/-- One iteration of the scan loop (`scan_telemetry` lines 919-932): classify
the file's laps against its benchmarks, then append the best dry lap, the
best wet lap and every gap lap to that file's (track, car) buckets. -/
def applyFile (bench : CStr → CStr → ℚ × ℚ × ℚ) (data : List TCGroup)
    (fr : FileRec) : List TCGroup :=
  addEntry fr.track fr.car (fun g =>
    { g with
      dry := g.dry ++ dryAdd bench fr,
      wet := g.wet ++ wetAdd bench fr,
      gap := g.gap ++ gapAdd bench fr }) data

/-- The whole file-processing loop: fold `applyFile` over the source files in
directory order, starting from the empty `defaultdict`. -/
def buildData (bench : CStr → CStr → ℚ × ℚ × ℚ) (files : List FileRec) :
    List TCGroup :=
  files.foldl (applyFile bench) []

/-! ## Copy deduplication (`scan_telemetry` lines 1059-1098) -/

structure CopyInfo where
  primary : Slot
  additional : List Slot
deriving DecidableEq

/-- One iteration of the copy loop: a source already copied only records the
extra PB; a new source is copied and keyed under its primary slot. -/
def copyStep (acc : List (ℕ × CopyInfo)) (e : Slot) : List (ℕ × CopyInfo) :=
  if (acc.find? (fun p => p.1 == e.src)).isSome then
    acc.map (fun p =>
      if p.1 == e.src then (p.1, ⟨p.2.primary, p.2.additional ++ [e]⟩) else p)
  else acc ++ [(e.src, ⟨e, []⟩)]

/-- The `copied_files` dictionary after the whole copy loop. -/
def copyFiles (slots : List Slot) : List (ℕ × CopyInfo) :=
  slots.foldl copyStep []

def lookupCopy (m : List (ℕ × CopyInfo)) (s : ℕ) : Option CopyInfo :=
  (m.find? (fun p => p.1 == s)).map Prod.snd

/-! ## Delta comparison (`scan_telemetry` lines 989-1009) -/

structure PrevEntry where
  rank : ℕ
  lap : ℚ
  fname : CStr
deriving DecidableEq

structure SlotCmp where
  prev : Option ℚ
  delta : Option ℚ
  isNew : Bool
deriving DecidableEq

def lookupPrev (m : List ((CStr × CStr × CStr) × List PrevEntry))
    (k : CStr × CStr × CStr) : Option (List PrevEntry) :=
  (m.find? (fun p => p.1 == k)).map Prod.snd

/-- The previous lap time for a slot: look up the (track, car, condition)
key in the previous-PB map, then linearly scan for the first entry with the
same rank. -/
def prevTimeFor (m : List ((CStr × CStr × CStr) × List PrevEntry))
    (k : CStr × CStr × CStr) (rank : ℕ) : Option ℚ :=
  match lookupPrev m k with
  | none => none
  | some l => (l.find? (fun p => p.rank == rank)).map PrevEntry.lap

/-- The per-slot comparison record: previous time, `delta = lap_time -
prev_time` when a previous time exists, and `is_new_pb = prev_time is None
or lap_time < prev_time`. -/
def compareSlot (m : List ((CStr × CStr × CStr) × List PrevEntry))
    (k : CStr × CStr × CStr) (rank : ℕ) (cur : ℚ) : SlotCmp :=
  match prevTimeFor m k rank with
  | none => ⟨none, none, true⟩
  | some pv => ⟨some pv, some (cur - pv), decide (cur < pv)⟩

/-! ## Filesystem model: undo and cleanup (`scan.py`) -/

inductive FsEntry
  | file (nm : CStr)
  | dir (nm : CStr) (contents : List CStr)
deriving DecidableEq

def FsEntry.name : FsEntry → CStr
  | .file n => n
  | .dir n _ => n

def FsEntry.isDirB : FsEntry → Bool
  | .file _ => false
  | .dir _ _ => true

/-- Model of `fnmatch`-style `*`-plus-suffix matching used by
`glob('*.ld')` / `glob('*.ldx')`. -/
def endsWithS (suf s : CStr) : Bool :=
  decide (suf.length ≤ s.length) && decide (s.drop (s.length - suf.length) = suf)

def leapYear (y : ℕ) : Bool := (y % 4 == 0 && y % 100 != 0) || y % 400 == 0

def daysInMonth (y mo : ℕ) : ℕ :=
  if mo = 2 then (if leapYear y then 29 else 28)
  else if mo = 4 ∨ mo = 6 ∨ mo = 9 ∨ mo = 11 then 30
  else 31

def dig (c : ℕ) : ℕ := c - 48

/-- Order-preserving encoding of a timestamp (fields within their calendar
bounds). -/
def tsEncode (y mo d h mi s : ℕ) : ℕ :=
  ((((y * 13 + mo) * 32 + d) * 24 + h) * 60 + mi) * 60 + s

/-- Model of matching a folder name against `^PBs_(\d{4}-\d{2}-\d{2}_\d{6})$`
followed by `datetime.strptime(..., "%Y-%m-%d_%H%M%S")`: `none` when the
name does not match or the timestamp is not a valid datetime. 80/66/115/95
are `P`, `B`, `s`, `_`; 45 is `-`. -/
def parsePBName (nm : CStr) : Option ℕ :=
  match nm with
  | 80 :: 66 :: 115 :: 95 :: y1 :: y2 :: y3 :: y4 :: 45 :: a1 :: a2 :: 45 ::
      b1 :: b2 :: 95 :: c1 :: c2 :: d1 :: d2 :: e1 :: e2 :: [] =>
    if isDigitN y1 && isDigitN y2 && isDigitN y3 && isDigitN y4 &&
        isDigitN a1 && isDigitN a2 && isDigitN b1 && isDigitN b2 &&
        isDigitN c1 && isDigitN c2 && isDigitN d1 && isDigitN d2 &&
        isDigitN e1 && isDigitN e2 then
      if 1 ≤ dig y1 * 1000 + dig y2 * 100 + dig y3 * 10 + dig y4 ∧
          1 ≤ dig a1 * 10 + dig a2 ∧ dig a1 * 10 + dig a2 ≤ 12 ∧
          1 ≤ dig b1 * 10 + dig b2 ∧
          dig b1 * 10 + dig b2 ≤
            daysInMonth (dig y1 * 1000 + dig y2 * 100 + dig y3 * 10 + dig y4)
              (dig a1 * 10 + dig a2) ∧
          dig c1 * 10 + dig c2 ≤ 23 ∧ dig d1 * 10 + dig d2 ≤ 59 ∧
          dig e1 * 10 + dig e2 ≤ 59 then
        some (tsEncode (dig y1 * 1000 + dig y2 * 100 + dig y3 * 10 + dig y4)
          (dig a1 * 10 + dig a2) (dig b1 * 10 + dig b2) (dig c1 * 10 + dig c2)
          (dig d1 * 10 + dig d2) (dig e1 * 10 + dig e2))
      else none
    else none
  | _ => none

/-- Stable insertion for the descending sort `sort(key=timestamp,
reverse=True)`. -/
def insDescTs (p : FsEntry × ℕ × ℕ) :
    List (FsEntry × ℕ × ℕ) → List (FsEntry × ℕ × ℕ)
  | [] => [p]
  | x :: xs => if x.2.1 > p.2.1 then x :: insDescTs p xs else p :: x :: xs

def sortDescTs : List (FsEntry × ℕ × ℕ) → List (FsEntry × ℕ × ℕ)
  | [] => []
  | p :: ps => insDescTs p (sortDescTs ps)

/-- Translation of `get_undo_candidates(source_dir)`: every directory whose
name matches the PB-folder convention with a valid timestamp, paired with its
timestamp and contained `.ld` count, newest first. -/
def get_undo_candidates (root : List FsEntry) : List (FsEntry × ℕ × ℕ) :=
  sortDescTs (root.filterMap (fun e =>
    match e with
    | .file _ => none
    | .dir nm fs =>
      (parsePBName nm).map (fun ts => (e, ts, (fs.filter (endsWithS extLd)).length))))

/-- Deletion of the single directory entry with the given name. -/
def removeByName : List FsEntry → CStr → List FsEntry
  | [], _ => []
  | x :: xs, n => if x.name == n then xs else x :: removeByName xs n

/-- The three shapes of message `undo_last_scan` can return: "No PB folders
found to undo.", `f"Deleted {folder.name} ({file_count} PB files)"`, and
`f"Error deleting folder: {e}"` (the exception text itself is not modelled). -/
inductive UndoMsg
  | noFolders
  | deleted (nm : CStr) (count : ℕ)
  | errorDeleting
deriving DecidableEq

/-- Replacement of the single directory entry with the given name (the state
of a folder whose deletion was interrupted partway). -/
def replaceByName : List FsEntry → CStr → FsEntry → List FsEntry
  | [], _, _ => []
  | x :: xs, n, e => if x.name == n then e :: xs else x :: replaceByName xs n e

/-- The `for item in folder.iterdir(): item.unlink()` loop under the I/O
oracle `ok`: unlink the contents in order until the first failure raises,
returning the remaining contents and whether the loop completed. -/
def unlinkAll (ok : CStr → Bool) : List CStr → List CStr × Bool
  | [] => ([], true)
  | n :: ns => if ok n then unlinkAll ok ns else (n :: ns, false)

/-- Translation of `undo_last_scan(source_dir)` with the per-name I/O oracle
`ok`: with no candidates nothing happens; otherwise the newest PB folder has
its contents unlinked one by one and is then removed with `rmdir`, and the
`try/except` turns the first failing call into the `(None, error)` return
with the partially emptied folder still in place. The result is the returned
folder (if any), the message and the filesystem state after the call. -/
def undo_last_scan (root : List FsEntry) (ok : CStr → Bool) :
    Option FsEntry × UndoMsg × List FsEntry :=
  match get_undo_candidates root with
  | [] => (none, .noFolders, root)
  | (e, _, fc) :: _ =>
    match e with
    | .file _ => (none, .errorDeleting, root)
    | .dir nm fs =>
      if (unlinkAll ok fs).2 && ok nm then
        (some (FsEntry.dir nm fs), .deleted nm fc, removeByName root nm)
      else
        (none, .errorDeleting,
          replaceByName root nm (FsEntry.dir nm (unlinkAll ok fs).1))

/-- Translation of `get_cleanup_candidates(source_dir)`: the directory
entries matching `*.ld`, then those matching `*.ldx` — only entries sitting
directly in the root, never the contents of any subdirectory. -/
def get_cleanup_candidates (root : List FsEntry) : List FsEntry :=
  root.filter (fun e => endsWithS extLd e.name) ++
    root.filter (fun e => endsWithS extLdx e.name)

/-- Whether `Path.unlink()` succeeds on an entry: a directory never unlinks;
a plain file unlinks according to the I/O oracle `ok`. -/
def unlinkOk (ok : CStr → Bool) : FsEntry → Bool
  | .file n => ok n
  | .dir _ _ => false

/-- Translation of `cleanup_old_files(source_dir)`: try to unlink every
candidate in order, counting successes and failures, collecting the failing
names, and continuing past failures. Returns (success_count, error_count,
error names, remaining root entries). -/
def cleanupStep (ok : CStr → Bool) (st : ℕ × ℕ × List CStr × List FsEntry)
    (e : FsEntry) : ℕ × ℕ × List CStr × List FsEntry :=
  if unlinkOk ok e then (st.1 + 1, st.2.1, st.2.2.1, removeByName st.2.2.2 e.name)
  else (st.1, st.2.1 + 1, st.2.2.1 ++ [e.name], st.2.2.2)

def cleanup_old_files (root : List FsEntry) (ok : CStr → Bool) :
    ℕ × ℕ × List CStr × List FsEntry :=
  (get_cleanup_candidates root).foldl (cleanupStep ok) (0, 0, [], root)


/-! ## Example strings for concrete instances -/

def spaT : CStr := "spa".toList.map Char.toNat

def carC : CStr := "ferrari".toList.map Char.toNat

def dateD : CStr := "2024.01.02".toList.map Char.toNat

def dateDash : CStr := "2024-01-02".toList.map Char.toNat

def mountPanoramaT : CStr := "mount_panorama".toList.map Char.toNat

def mountT : CStr := "mount".toList.map Char.toNat

/-! # Theorems -/

theorem pyRound_cases (q : ℚ) : pyRound q = ⌊q⌋ ∨ pyRound q = ⌊q⌋ + 1 := by
  unfold pyRound
  split_ifs <;> simp

theorem le_pyRound (n : ℤ) (q : ℚ) (h : (n : ℚ) ≤ q) : n ≤ pyRound q := by
  have hf : n ≤ ⌊q⌋ := Int.le_floor.mpr h
  rcases pyRound_cases q with h' | h' <;> omega

theorem pyRound_le (n : ℤ) (q : ℚ) (h : q ≤ (n : ℚ)) : pyRound q ≤ n := by
  rcases eq_or_lt_of_le h with he | hl
  · rw [he]
    unfold pyRound
    rw [Int.floor_intCast]
    simp
  · have hf : ⌊q⌋ < n := Int.floor_lt.mpr hl
    rcases pyRound_cases q with h' | h' <;> omega

theorem pyRound_add_int (q : ℚ) (n : ℤ) (hn : n % 2 = 0) :
    pyRound (q + n) = pyRound q + n := by
  unfold pyRound
  have hfl : ⌊q + (n : ℚ)⌋ = ⌊q⌋ + n := Int.floor_add_int q n
  have key : q + (n : ℚ) - ((⌊q⌋ + n : ℤ) : ℚ) = q - (⌊q⌋ : ℚ) := by
    push_cast
    ring
  rw [hfl, key]
  split_ifs with h1 h2 h3 h4 h5 <;> omega

theorem pyRound_err (q : ℚ) : |(pyRound q : ℚ) - q| ≤ 1 / 2 := by
  have h0 : (0 : ℚ) ≤ q - ⌊q⌋ := by
    have := Int.floor_le q
    linarith
  have h1 : q - ⌊q⌋ < 1 := by
    have := Int.lt_floor_add_one q
    linarith
  unfold pyRound
  split_ifs with ha hb hc <;> · rw [abs_le]; push_cast; constructor <;> linarith

theorem classify_lap_eq (lap dryB wetB tol : ℚ) :
    classify_lap lap dryB wetB tol =
      if dryB * (1 - tol) ≤ lap ∧ lap ≤ dryB * (1 + tol) then some .dry
      else if wetB * (1 - tol) ≤ lap ∧ lap ≤ wetB * (1 + tol) then some .wet
      else if dryB * (1 + tol) < wetB * (1 - tol) ∧
          dryB * (1 + tol) < lap ∧ lap < wetB * (1 - tol) then some .gap
      else none := rfl

/-! ## Claim C3 -/

/-- C3: `classify_lap` evaluates the ranges in a fixed order: it returns Dry
exactly on the dry range (so a duration inside both ranges is Dry), else Wet
exactly on the wet range, Gap exactly when the ranges do not touch and the
duration lies strictly between them, and Invalid (`none`) otherwise; moreover
for dry=100, wet=140, tol=0.05 the laps 103, 135 and 120 classify as Dry, Wet
and Gap respectively. -/
theorem C3_thm (lap dryB wetB tol : ℚ) :
    (classify_lap lap dryB wetB tol = some .dry ↔
      dryB * (1 - tol) ≤ lap ∧ lap ≤ dryB * (1 + tol)) ∧
    (classify_lap lap dryB wetB tol = some .wet ↔
      ¬(dryB * (1 - tol) ≤ lap ∧ lap ≤ dryB * (1 + tol)) ∧
      (wetB * (1 - tol) ≤ lap ∧ lap ≤ wetB * (1 + tol))) ∧
    (classify_lap lap dryB wetB tol = some .gap ↔
      dryB * (1 + tol) < wetB * (1 - tol) ∧
      dryB * (1 + tol) < lap ∧ lap < wetB * (1 - tol)) ∧
    (classify_lap lap dryB wetB tol = none ↔
      ¬(dryB * (1 - tol) ≤ lap ∧ lap ≤ dryB * (1 + tol)) ∧
      ¬(wetB * (1 - tol) ≤ lap ∧ lap ≤ wetB * (1 + tol)) ∧
      ¬(dryB * (1 + tol) < wetB * (1 - tol) ∧
        dryB * (1 + tol) < lap ∧ lap < wetB * (1 - tol))) ∧
    classify_lap 103 100 140 (1 / 20) = some .dry ∧
    classify_lap 135 100 140 (1 / 20) = some .wet ∧
    classify_lap 120 100 140 (1 / 20) = some .gap := by
  refine ⟨?_, ?_, ?_, ?_, by with_unfolding_all decide,
    by with_unfolding_all decide, by with_unfolding_all decide⟩ <;>
    · rw [classify_lap_eq]
      split_ifs with h1 h2 h3 <;> simp_all

/-! ## Claim C1 -/

/-- C1 counterexample: with dry = 100, wet = 101, tol = 0.05 — all satisfying
the claim's hypotheses (positive benchmarks, tolerance in (0,1)) — the wet
benchmark value itself classifies as Dry, not Wet, because the overlapping dry
range is checked first. -/
theorem C1_cex :
    (0 : ℚ) < 100 ∧ (0 : ℚ) < 101 ∧ (0 : ℚ) < 1 / 20 ∧ (1 / 20 : ℚ) < 1 ∧
    classify_lap 101 100 101 (1 / 20) = some .dry ∧
    classify_lap 101 100 101 (1 / 20) ≠ some .wet := by
  refine ⟨by norm_num, by norm_num, by norm_num, by norm_num,
    by with_unfolding_all decide, by with_unfolding_all decide⟩

/-- C1 amended: for positive benchmarks and tolerance in (0,1), the dry
benchmark always self-classifies as Dry; the wet benchmark self-classifies as
Wet provided it does not fall inside the dry range (if it does, the dry branch
wins and it classifies as Dry). -/
theorem C1_thm (dryB wetB tol : ℚ) (hd : 0 < dryB) (hw : 0 < wetB)
    (ht0 : 0 < tol) (_ht1 : tol < 1) :
    classify_lap dryB dryB wetB tol = some .dry ∧
    (¬(dryB * (1 - tol) ≤ wetB ∧ wetB ≤ dryB * (1 + tol)) →
      classify_lap wetB dryB wetB tol = some .wet) := by
  constructor
  · have h1 : dryB * (1 - tol) ≤ dryB := by nlinarith
    have h2 : dryB ≤ dryB * (1 + tol) := by nlinarith
    rw [classify_lap_eq, if_pos ⟨h1, h2⟩]
  · intro hout
    have h1 : wetB * (1 - tol) ≤ wetB := by nlinarith
    have h2 : wetB ≤ wetB * (1 + tol) := by nlinarith
    rw [classify_lap_eq, if_neg hout, if_pos ⟨h1, h2⟩]

/-- C1 witness: instantiation of the amended theorem at dry = 100, wet = 140,
tol = 0.05 (no overlap), where both benchmarks self-classify. -/
theorem C1_wit :
    classify_lap 100 100 140 (1 / 20) = some .dry ∧
    classify_lap 140 100 140 (1 / 20) = some .wet := by
  have h := C1_thm 100 140 (1 / 20) (by norm_num) (by norm_num)
    (by norm_num) (by norm_num)
  exact ⟨h.1, h.2 (by norm_num)⟩

theorem recommend_tolerance_eq (dryT wetT : Option ℚ) (marg : ℚ) :
    recommend_tolerance dryT wetT marg =
      (match calculate_max_safe_tolerance dryT wetT with
      | none => none
      | some maxTol =>
        if maxTol - marg < 1 / 20 then some (1 / 20)
        else if maxTol - marg > 3 / 10 then some (3 / 10)
        else some ((pyRound ((maxTol - marg) * 100) : ℚ) / 100)) := rfl

/-! ## Claim C7 -/

/-- C7: `recommend_tolerance` is defined exactly when both benchmarks are
supplied and dry < wet (the same condition under which the maximum safe
tolerance `(wet-dry)/(wet+dry)` is defined); when defined it equals the
maximum safe tolerance minus the margin, clamped to [0.05, 0.30] and rounded
to the nearest 0.01, hence always lies in [0.05, 0.30]; for dry = 100,
wet = 110 (margin 0.02) the result clamps to 0.05. -/
theorem C7_thm (d w marg : ℚ) :
    recommend_tolerance none (some w) marg = none ∧
    recommend_tolerance (some d) none marg = none ∧
    recommend_tolerance none none marg = none ∧
    calculate_max_safe_tolerance (some d) (some w) =
      (if d < w then some ((w - d) / (w + d)) else none) ∧
    ((recommend_tolerance (some d) (some w) marg).isSome ↔ d < w) ∧
    recommend_tolerance (some d) (some w) marg =
      (if d < w then
        some (max (1 / 20) (min (3 / 10)
          ((pyRound (((w - d) / (w + d) - marg) * 100) : ℚ) / 100)))
      else none) ∧
    (1 / 20 : ℚ) ≤ (recommend_tolerance (some d) (some w) marg).getD (1 / 20) ∧
    (recommend_tolerance (some d) (some w) marg).getD (1 / 20) ≤ 3 / 10 ∧
    recommend_tolerance (some 100) (some 110) (1 / 50) = some (1 / 20) := by
  have hcalc : calculate_max_safe_tolerance (some d) (some w) =
      (if d < w then some ((w - d) / (w + d)) else none) := by
    unfold calculate_max_safe_tolerance
    show (if d ≥ w then none else some ((w - d) / (w + d))) = _
    split_ifs with h1 h2 h3
    · exact absurd h2 (not_lt.mpr h1)
    · rfl
    · rfl
    · exact absurd (lt_of_not_le h1) h3
  have hmain : recommend_tolerance (some d) (some w) marg =
      (if d < w then
        some (max (1 / 20) (min (3 / 10)
          ((pyRound (((w - d) / (w + d) - marg) * 100) : ℚ) / 100)))
      else none) := by
    rw [recommend_tolerance_eq, hcalc]
    rcases lt_or_le d w with h | h
    · rw [if_pos h, if_pos h]
      show (if (w - d) / (w + d) - marg < 1 / 20 then some (1 / 20 : ℚ)
        else if (w - d) / (w + d) - marg > 3 / 10 then some (3 / 10)
        else some ((pyRound (((w - d) / (w + d) - marg) * 100) : ℚ) / 100)) = _
      generalize (w - d) / (w + d) - marg = r
      split_ifs with h1 h2
      · have hb : pyRound (r * 100) ≤ 5 := by
          apply pyRound_le
          push_cast
          linarith
        have hb' : (pyRound (r * 100) : ℚ) / 100 ≤ 1 / 20 := by
          have : (pyRound (r * 100) : ℚ) ≤ 5 := by exact_mod_cast hb
          linarith
        rw [min_eq_right (le_trans hb' (by norm_num)), max_eq_left hb']
      · have hb : (30 : ℤ) ≤ pyRound (r * 100) := by
          apply le_pyRound
          push_cast
          linarith
        have hb' : (3 / 10 : ℚ) ≤ (pyRound (r * 100) : ℚ) / 100 := by
          have : (30 : ℚ) ≤ (pyRound (r * 100) : ℚ) := by exact_mod_cast hb
          linarith
        rw [min_eq_left hb', max_eq_right (by norm_num)]
      · have hlo : (5 : ℤ) ≤ pyRound (r * 100) := by
          apply le_pyRound
          push_cast
          linarith
        have hhi : pyRound (r * 100) ≤ 30 := by
          apply pyRound_le
          push_cast
          linarith
        have hlo' : (1 / 20 : ℚ) ≤ (pyRound (r * 100) : ℚ) / 100 := by
          have : (5 : ℚ) ≤ (pyRound (r * 100) : ℚ) := by exact_mod_cast hlo
          linarith
        have hhi' : (pyRound (r * 100) : ℚ) / 100 ≤ 3 / 10 := by
          have : (pyRound (r * 100) : ℚ) ≤ 30 := by exact_mod_cast hhi
          linarith
        rw [min_eq_right hhi', max_eq_right hlo']
    · rw [if_neg (not_lt.mpr h), if_neg (not_lt.mpr h)]
  refine ⟨rfl, rfl, rfl, hcalc, ?_, hmain, ?_, ?_, by with_unfolding_all decide⟩
  · rw [hmain]
    rcases lt_or_le d w with h | h
    · simp [h]
    · simp [not_lt.mpr h]
  · rw [hmain]
    rcases lt_or_le d w with h | h
    · rw [if_pos h]
      exact le_max_left _ _
    · rw [if_neg (not_lt.mpr h)]
      norm_num
  · rw [hmain]
    rcases lt_or_le d w with h | h
    · rw [if_pos h]
      show max (1 / 20 : ℚ) _ ≤ 3 / 10
      rw [max_le_iff]
      exact ⟨by norm_num, min_le_left _ _⟩
    · rw [if_neg (not_lt.mpr h)]
      norm_num

/-! ## Stable-sort lemmas -/

theorem insKey_perm (f : α → ℚ) (e : α) (l : List α) :
    List.Perm (insKey f e l) (e :: l) := by
  induction l with
  | nil => exact List.Perm.refl _
  | cons x xs ih =>
    unfold insKey
    split_ifs
    · exact ((ih.cons x).trans (List.Perm.swap e x xs)).symm.symm
    · exact List.Perm.refl _

theorem sortKey_perm (f : α → ℚ) (l : List α) :
    List.Perm (sortKey f l) l := by
  induction l with
  | nil => exact List.Perm.refl _
  | cons e es ih =>
    exact (insKey_perm f e (sortKey f es)).trans (ih.cons e)

theorem mem_insKey (f : α → ℚ) (e : α) (l : List α) (a : α) :
    a ∈ insKey f e l ↔ a = e ∨ a ∈ l := by
  rw [(insKey_perm f e l).mem_iff, List.mem_cons]

theorem insKey_pairwise (f : α → ℚ) (e : α) (l : List α)
    (h : List.Pairwise (fun a b => f a ≤ f b) l) :
    List.Pairwise (fun a b => f a ≤ f b) (insKey f e l) := by
  induction l with
  | nil => simp [insKey]
  | cons x xs ih =>
    rcases List.pairwise_cons.mp h with ⟨hx, hxs⟩
    unfold insKey
    split_ifs with hlt
    · refine List.pairwise_cons.mpr ⟨?_, ih hxs⟩
      intro y hy
      rcases (mem_insKey f e xs y).mp hy with rfl | hy'
      · exact le_of_lt hlt
      · exact hx y hy'
    · refine List.pairwise_cons.mpr ⟨?_, h⟩
      intro y hy
      rcases List.mem_cons.mp hy with rfl | hy'
      · exact not_lt.mp hlt
      · exact le_trans (not_lt.mp hlt) (hx y hy')

theorem sortKey_pairwise (f : α → ℚ) (l : List α) :
    List.Pairwise (fun a b => f a ≤ f b) (sortKey f l) := by
  induction l with
  | nil => simp [sortKey]
  | cons e es ih => exact insKey_pairwise f e (sortKey f es) ih

theorem insKey_filter_pos (f : α → ℚ) (e : α) (l : List α) (t : ℚ)
    (he : f e = t) :
    (insKey f e l).filter (fun a => decide (f a = t)) =
      e :: l.filter (fun a => decide (f a = t)) := by
  induction l with
  | nil => simp [insKey, he]
  | cons x xs ih =>
    unfold insKey
    split_ifs with hlt
    · have hx : ¬ f x = t := by
        intro hxt
        rw [hxt, ← he] at hlt
        exact lt_irrefl _ hlt
      simp only [List.filter_cons, hx, decide_eq_true_eq, if_neg hx]
      simp only [decide_eq_false hx, Bool.false_eq_true, if_false]
      exact ih
    · simp [List.filter_cons, he]

theorem insKey_filter_neg (f : α → ℚ) (e : α) (l : List α) (t : ℚ)
    (he : ¬ f e = t) :
    (insKey f e l).filter (fun a => decide (f a = t)) =
      l.filter (fun a => decide (f a = t)) := by
  induction l with
  | nil => simp [insKey, he]
  | cons x xs ih =>
    unfold insKey
    split_ifs with hlt
    · simp only [List.filter_cons, ih]
    · simp [List.filter_cons, he]

theorem sortKey_filter (f : α → ℚ) (l : List α) (t : ℚ) :
    (sortKey f l).filter (fun a => decide (f a = t)) =
      l.filter (fun a => decide (f a = t)) := by
  induction l with
  | nil => rfl
  | cons e es ih =>
    show (insKey f e (sortKey f es)).filter _ = _
    by_cases he : f e = t
    · rw [insKey_filter_pos f e _ t he, ih]
      simp [List.filter_cons, he]
    · rw [insKey_filter_neg f e _ t he, ih]
      simp [List.filter_cons, he]

theorem rankFrom_map_snd (r : ℕ) (l : List α) :
    (rankFrom r l).map Prod.snd = l := by
  induction l generalizing r with
  | nil => rfl
  | cons e es ih => simp [rankFrom, ih]

theorem rankFrom_map_fst (r : ℕ) (l : List α) :
    (rankFrom r l).map Prod.fst = List.range' r l.length := by
  induction l generalizing r with
  | nil => rfl
  | cons e es ih => simp [rankFrom, ih, List.range'_succ]

theorem rankFrom_length (r : ℕ) (l : List α) :
    (rankFrom r l).length = l.length := by
  induction l generalizing r with
  | nil => rfl
  | cons e es ih => simp [rankFrom, ih]

theorem mem_rankFrom (r : ℕ) (l : List α) (p : ℕ × α) (h : p ∈ rankFrom r l) :
    p.2 ∈ l := by
  induction l generalizing r with
  | nil => cases h
  | cons e es ih =>
    rcases List.mem_cons.mp h with rfl | h'
    · exact List.mem_cons_self _ _
    · exact List.mem_cons_of_mem _ (ih (r + 1) h')

theorem rankFrom_pairwise (R : α → α → Prop) (r : ℕ) (l : List α)
    (h : List.Pairwise R l) :
    List.Pairwise (fun p q => R p.2 q.2) (rankFrom r l) := by
  induction l generalizing r with
  | nil => exact List.Pairwise.nil
  | cons e es ih =>
    rcases List.pairwise_cons.mp h with ⟨he, hes⟩
    refine List.pairwise_cons.mpr ⟨?_, ih (r + 1) hes⟩
    intro q hq
    exact he q.2 (mem_rankFrom (r + 1) es q hq)

/-! ## Claim C5 -/

/-- C5: for each (track, car, condition) group the curator emits at most `n`
slots (`n` the configured PB count); their ranks are exactly `1..k` for `k`
the number emitted; the slots are ordered ascending by lap time; and the sort
is stable keyed on duration only — laps of equal duration keep their
first-encountered input order (element-wise, the sorted list restricted to
any fixed duration equals the input list restricted to it). -/
theorem C5_thm (track car cond : CStr) (n : ℕ) (laps : List LapEntry) :
    (pbSlots track car cond n laps).length ≤ n ∧
    (pbSlots track car cond n laps).map Slot.rank =
      List.range' 1 (pbSlots track car cond n laps).length ∧
    List.Pairwise (fun a b : Slot => a.lap ≤ b.lap)
      (pbSlots track car cond n laps) ∧
    (pbSlots track car cond n laps).map Slot.lap =
      ((sortKey LapEntry.lap laps).take n).map LapEntry.lap ∧
    (∀ t : ℚ,
      (sortKey LapEntry.lap laps).filter (fun a => decide (a.lap = t)) =
        laps.filter (fun a => decide (a.lap = t))) := by
  refine ⟨?_, ?_, ?_, ?_, fun t => sortKey_filter LapEntry.lap laps t⟩
  · unfold pbSlots
    rw [List.length_map, rankFrom_length, List.length_take]
    exact min_le_left _ _
  · unfold pbSlots
    rw [List.length_map, rankFrom_length, List.map_map]
    have : (Slot.rank ∘ mkSlot track car cond) = Prod.fst := by
      funext p
      rfl
    rw [this, rankFrom_map_fst]
  · unfold pbSlots
    refine List.Pairwise.map _ ?_
      (rankFrom_pairwise (fun a b : LapEntry => a.lap ≤ b.lap) 1 _ ?_)
    · intro p q h
      exact h
    · exact (sortKey_pairwise LapEntry.lap laps).sublist (List.take_sublist n _)
  · unfold pbSlots
    rw [List.map_map]
    have : (Slot.lap ∘ mkSlot track car cond) =
        (fun p : ℕ × LapEntry => p.2.lap) := by
      funext p
      rfl
    rw [this]
    have h2 : (fun p : ℕ × LapEntry => p.2.lap) =
        (LapEntry.lap ∘ Prod.snd) := rfl
    rw [h2, ← List.map_map, rankFrom_map_snd]

/-! ## Copy-deduplication lemmas -/

theorem lookupCopy_cons (p : ℕ × CopyInfo) (ps : List (ℕ × CopyInfo)) (s : ℕ) :
    lookupCopy (p :: ps) s = if p.1 = s then some p.2 else lookupCopy ps s := by
  by_cases h : p.1 = s
  · simp [lookupCopy, List.find?_cons, h]
  · simp [lookupCopy, List.find?_cons, h]

theorem lookupCopy_append_one (acc : List (ℕ × CopyInfo)) (s s' : ℕ)
    (i : CopyInfo) :
    lookupCopy (acc ++ [(s, i)]) s' =
      (match lookupCopy acc s' with
      | some j => some j
      | none => if s' = s then some i else none) := by
  induction acc with
  | nil =>
    rw [List.nil_append, lookupCopy_cons]
    show (if s = s' then some i else none) = _
    by_cases h : s = s'
    · rw [if_pos h]
      show _ = (if s' = s then some i else none)
      rw [if_pos h.symm]
    · rw [if_neg h]
      show (none : Option CopyInfo) = (if s' = s then some i else none)
      rw [if_neg (fun hh => h hh.symm)]
  | cons p ps ih =>
    rw [List.cons_append, lookupCopy_cons, lookupCopy_cons]
    by_cases h : p.1 = s'
    · simp [h]
    · simp only [if_neg h, ih]

theorem lookupCopy_copyUpdate (acc : List (ℕ × CopyInfo)) (e : Slot) (s' : ℕ) :
    lookupCopy (acc.map (fun p =>
      if p.1 == e.src then (p.1, ⟨p.2.primary, p.2.additional ++ [e]⟩) else p)) s' =
      (if s' = e.src then
        (lookupCopy acc s').map
          (fun i => (⟨i.primary, i.additional ++ [e]⟩ : CopyInfo))
      else lookupCopy acc s') := by
  induction acc with
  | nil =>
    show (none : Option CopyInfo) = _
    by_cases h : s' = e.src
    · rw [if_pos h]
      rfl
    · rw [if_neg h]
      rfl
  | cons p ps ih =>
    rw [List.map_cons, lookupCopy_cons]
    have hkey : (if p.1 == e.src then
        ((p.1, ⟨p.2.primary, p.2.additional ++ [e]⟩) : ℕ × CopyInfo) else p).1 = p.1 := by
      split_ifs <;> rfl
    rw [hkey]
    by_cases hps : p.1 = e.src
    · by_cases hk : p.1 = s'
      · rw [if_pos hk]
        have hss : s' = e.src := hk ▸ hps
        rw [if_pos hss, lookupCopy_cons, if_pos hk]
        have : (p.1 == e.src) = true := by
          rw [beq_iff_eq]
          exact hps
        rw [if_pos this]
        rfl
      · rw [if_neg hk, ih, lookupCopy_cons, if_neg hk]
    · by_cases hk : p.1 = s'
      · rw [if_pos hk]
        have hne : ¬ s' = e.src := fun hh => hps (hk.trans hh)
        rw [if_neg hne, lookupCopy_cons, if_pos hk]
        have : (p.1 == e.src) = false := by
          rw [beq_eq_false_iff_ne]
          exact hps
        rw [if_neg (by simp [this])]
      · rw [if_neg hk, ih, lookupCopy_cons, if_neg hk]

theorem lookupCopy_copyStep_same (acc : List (ℕ × CopyInfo)) (e : Slot) :
    lookupCopy (copyStep acc e) e.src =
      (match lookupCopy acc e.src with
      | some i => some ⟨i.primary, i.additional ++ [e]⟩
      | none => some ⟨e, []⟩) := by
  unfold copyStep
  split_ifs with hf
  · rw [lookupCopy_copyUpdate, if_pos rfl]
    rcases hl : lookupCopy acc e.src with _ | i
    · exfalso
      unfold lookupCopy at hl
      rcases Option.isSome_iff_exists.mp hf with ⟨p, hp⟩
      rw [hp] at hl
      cases hl
    · rfl
  · rw [lookupCopy_append_one]
    rcases hl : lookupCopy acc e.src with _ | i
    · rw [if_pos rfl]
    · exfalso
      unfold lookupCopy at hl
      rcases hfind : acc.find? (fun p => p.1 == e.src) with _ | p
      · rw [hfind] at hl
        cases hl
      · rw [hfind] at hf
        exact hf rfl

theorem lookupCopy_copyStep_other (acc : List (ℕ × CopyInfo)) (e : Slot)
    (s : ℕ) (hs : s ≠ e.src) :
    lookupCopy (copyStep acc e) s = lookupCopy acc s := by
  unfold copyStep
  split_ifs with hf
  · rw [lookupCopy_copyUpdate, if_neg hs]
  · rw [lookupCopy_append_one]
    rcases hl : lookupCopy acc s with _ | i
    · rw [if_neg hs]
    · rfl

theorem lookupCopy_foldl (slots : List Slot) (acc : List (ℕ × CopyInfo)) (s : ℕ) :
    lookupCopy (slots.foldl copyStep acc) s =
      (match lookupCopy acc s with
      | some i =>
        some ⟨i.primary, i.additional ++ slots.filter (fun e => e.src == s)⟩
      | none =>
        match slots.filter (fun e => e.src == s) with
        | [] => none
        | e :: rest => some ⟨e, rest⟩) := by
  induction slots generalizing acc with
  | nil =>
    rcases hl : lookupCopy acc s with _ | i
    · rw [List.foldl_nil, hl]
      rfl
    · rw [List.foldl_nil, hl]
      simp
  | cons e es ih =>
    rw [List.foldl_cons, ih]
    by_cases hs : e.src = s
    · subst hs
      rw [lookupCopy_copyStep_same]
      rcases hl : lookupCopy acc e.src with _ | i
      · simp [List.filter_cons]
      · simp [List.filter_cons]
    · rw [lookupCopy_copyStep_other acc e s (fun hh => hs hh.symm)]
      have hfe : (e.src == s) = false := by
        rw [beq_eq_false_iff_ne]
        exact hs
      rw [List.filter_cons, hfe]
      simp

theorem length_copyStep (acc : List (ℕ × CopyInfo)) (e : Slot) :
    (copyStep acc e).length =
      (if (acc.find? (fun p => p.1 == e.src)).isSome then acc.length
       else acc.length + 1) := by
  unfold copyStep
  split_ifs <;> simp

theorem keys_copyStep (acc : List (ℕ × CopyInfo)) (e : Slot) :
    (copyStep acc e).map Prod.fst =
      (if (acc.find? (fun p => p.1 == e.src)).isSome then acc.map Prod.fst
       else acc.map Prod.fst ++ [e.src]) := by
  unfold copyStep
  split_ifs with h
  · rw [List.map_map]
    apply List.map_congr_left
    intro p _
    show (if (p.1 == e.src) = true then
      ((p.1, ⟨p.2.primary, p.2.additional ++ [e]⟩) : ℕ × CopyInfo) else p).1 = p.1
    split_ifs <;> rfl
  · simp

theorem findKey_isSome (acc : List (ℕ × CopyInfo)) (s : ℕ) :
    (acc.find? (fun p => p.1 == s)).isSome = true ↔ s ∈ acc.map Prod.fst := by
  rw [List.find?_isSome, List.mem_map]
  constructor
  · rintro ⟨p, hp, hb⟩
    exact ⟨p, hp, beq_iff_eq.mp hb⟩
  · rintro ⟨p, hp, hb⟩
    exact ⟨p, hp, beq_iff_eq.mpr hb⟩

theorem keys_nodup_foldl (slots : List Slot) (acc : List (ℕ × CopyInfo))
    (h : (acc.map Prod.fst).Nodup) :
    ((slots.foldl copyStep acc).map Prod.fst).Nodup := by
  induction slots generalizing acc with
  | nil => exact h
  | cons e es ih =>
    rw [List.foldl_cons]
    refine ih _ ?_
    rw [keys_copyStep]
    split_ifs with hf
    · exact h
    · rw [List.nodup_append]
      refine ⟨h, List.nodup_singleton _, ?_⟩
      intro s hsa hse
      rcases List.mem_singleton.mp hse with rfl
      exact hf ((findKey_isSome acc e.src).mpr hsa)

theorem length_foldl_le (slots : List Slot) (acc : List (ℕ × CopyInfo)) :
    (slots.foldl copyStep acc).length ≤ acc.length + slots.length := by
  induction slots generalizing acc with
  | nil => simp
  | cons e es ih =>
    rw [List.foldl_cons]
    refine le_trans (ih _) ?_
    rw [length_copyStep]
    split_ifs <;> simp <;> omega

theorem length_foldl_eq (slots : List Slot) (acc : List (ℕ × CopyInfo))
    (h1 : (slots.map Slot.src).Nodup)
    (h2 : ∀ s ∈ slots.map Slot.src, s ∉ acc.map Prod.fst) :
    (slots.foldl copyStep acc).length = acc.length + slots.length := by
  induction slots generalizing acc with
  | nil => simp
  | cons e es ih =>
    rw [List.map_cons, List.nodup_cons] at h1
    have hmem : e.src ∉ acc.map Prod.fst :=
      h2 e.src (by simp)
    have hf : ¬ (acc.find? (fun p => p.1 == e.src)).isSome = true := by
      intro hh
      exact hmem ((findKey_isSome acc e.src).mp hh)
    rw [List.foldl_cons]
    have hstep : (copyStep acc e).length = acc.length + 1 := by
      rw [length_copyStep, if_neg hf]
    have hkeys : (copyStep acc e).map Prod.fst = acc.map Prod.fst ++ [e.src] := by
      rw [keys_copyStep, if_neg hf]
    have h2' : ∀ s ∈ es.map Slot.src, s ∉ (copyStep acc e).map Prod.fst := by
      intro s hs
      rw [hkeys, List.mem_append, List.mem_singleton]
      rintro (hin | rfl)
      · exact h2 s (List.mem_cons_of_mem _ hs) hin
      · exact h1.1 hs
    rw [ih (copyStep acc e) h1.2 h2', hstep]
    simp [Nat.add_assoc, Nat.add_comm 1]

theorem length_foldl_lt (slots : List Slot) (acc : List (ℕ × CopyInfo))
    (h : ¬ (slots.map Slot.src).Nodup ∨
      ∃ s ∈ slots.map Slot.src, s ∈ acc.map Prod.fst) :
    (slots.foldl copyStep acc).length < acc.length + slots.length := by
  induction slots generalizing acc with
  | nil =>
    rcases h with h | ⟨s, hs, _⟩
    · exact absurd List.nodup_nil h
    · cases hs
  | cons e es ih =>
    rw [List.foldl_cons]
    by_cases hmem : e.src ∈ acc.map Prod.fst
    · have hf : (acc.find? (fun p => p.1 == e.src)).isSome = true :=
        (findKey_isSome acc e.src).mpr hmem
      have hstep : (copyStep acc e).length = acc.length := by
        rw [length_copyStep, if_pos hf]
      have := length_foldl_le es (copyStep acc e)
      rw [hstep] at this
      calc (es.foldl copyStep (copyStep acc e)).length
          ≤ acc.length + es.length := this
        _ < acc.length + (e :: es).length := by simp
    · have hf : ¬ (acc.find? (fun p => p.1 == e.src)).isSome = true := by
        intro hh
        exact hmem ((findKey_isSome acc e.src).mp hh)
      have hstep : (copyStep acc e).length = acc.length + 1 := by
        rw [length_copyStep, if_neg hf]
      have hkeys : (copyStep acc e).map Prod.fst = acc.map Prod.fst ++ [e.src] := by
        rw [keys_copyStep, if_neg hf]
      have hnext : ¬ (es.map Slot.src).Nodup ∨
          ∃ s ∈ es.map Slot.src, s ∈ (copyStep acc e).map Prod.fst := by
        rcases h with h | ⟨s, hs, hin⟩
        · rw [List.map_cons, List.nodup_cons] at h
          push_neg at h
          by_cases hdup : e.src ∈ es.map Slot.src
          · refine Or.inr ⟨e.src, hdup, ?_⟩
            rw [hkeys, List.mem_append]
            exact Or.inr (by simp)
          · exact Or.inl (h hdup)
        · rcases List.mem_cons.mp hs with rfl | hs'
          · exact absurd hin hmem
          · refine Or.inr ⟨s, hs', ?_⟩
            rw [hkeys, List.mem_append]
            exact Or.inl hin
      have := ih (copyStep acc e) hnext
      rw [hstep] at this
      calc (es.foldl copyStep (copyStep acc e)).length
          < acc.length + 1 + es.length := this
        _ = acc.length + (e :: es).length := by simp [Nat.add_assoc, Nat.add_comm 1]

/-! ## Claim C4 -/

/-- C4: within one run each distinct source file is copied at most once (the
copied-files dictionary keys are duplicate-free); for every source, the
record stored for it has as primary slot the first slot for that source in
the stable ranking order of `buildSlots` (per (track, car): dry slots by
rank, then wet slots by rank) — the primary slot carries the destination
filename — and as additional PBs exactly the later slots of the same source,
which are not copied again; the number of copied files never exceeds the
number of PB slots, with equality iff no source supplies more than one
slot. -/
theorem C4_thm (n : ℕ) (data : List TCGroup) :
    ((copyFiles (buildSlots n data)).map Prod.fst).Nodup ∧
    (∀ s : ℕ, lookupCopy (copyFiles (buildSlots n data)) s =
      (match (buildSlots n data).filter (fun e => e.src == s) with
       | [] => none
       | e :: rest => some ⟨e, rest⟩)) ∧
    (copyFiles (buildSlots n data)).length ≤ (buildSlots n data).length ∧
    ((copyFiles (buildSlots n data)).length = (buildSlots n data).length ↔
      ((buildSlots n data).map Slot.src).Nodup) := by
  refine ⟨keys_nodup_foldl _ [] (by simp), ?_, ?_, ?_, ?_⟩
  · intro s
    exact lookupCopy_foldl (buildSlots n data) [] s
  · have := length_foldl_le (buildSlots n data) []
    simpa using this
  · intro heq
    by_contra hnd
    have hlt := length_foldl_lt (buildSlots n data) [] (Or.inl hnd)
    unfold copyFiles at heq
    rw [heq] at hlt
    simp at hlt
  · intro hnd
    have heq := length_foldl_eq (buildSlots n data) [] hnd (by simp)
    unfold copyFiles
    simpa using heq

/-! ## Claim C8 -/

/-- C8: for each current slot the comparison record stores the previous lap
time found under the same (track, car, condition) key and rank; the delta is
`current - previous` exactly when a previous time exists; the slot is marked
an improvement (`is_new_pb`) exactly when the previous slot is absent or the
delta is negative; and with no previous snapshot (empty map) every slot is
new with no delta. -/
theorem C8_thm (m : List ((CStr × CStr × CStr) × List PrevEntry))
    (k : CStr × CStr × CStr) (rank : ℕ) (cur : ℚ) :
    (compareSlot m k rank cur).prev = prevTimeFor m k rank ∧
    (compareSlot m k rank cur).delta =
      (prevTimeFor m k rank).map (fun pv => cur - pv) ∧
    ((compareSlot m k rank cur).isNew = true ↔
      (compareSlot m k rank cur).prev = none ∨
      ∃ dlt, (compareSlot m k rank cur).delta = some dlt ∧ dlt < 0) ∧
    compareSlot [] k rank cur = ⟨none, none, true⟩ ∧
    (∀ l e, lookupPrev m k = some l →
      l.find? (fun p => p.rank == rank) = some e →
      (compareSlot m k rank cur).prev = some e.lap ∧
      (compareSlot m k rank cur).delta = some (cur - e.lap) ∧
      ((compareSlot m k rank cur).isNew = true ↔ cur < e.lap)) := by
  have hbase : ∀ pv, prevTimeFor m k rank = pv →
      compareSlot m k rank cur =
        (match pv with
        | none => ⟨none, none, true⟩
        | some v => ⟨some v, some (cur - v), decide (cur < v)⟩) := by
    intro pv hpv
    unfold compareSlot
    rw [hpv]
  refine ⟨?_, ?_, ?_, ?_, ?_⟩
  · rcases hp : prevTimeFor m k rank with _ | pv <;>
      rw [hbase _ hp]
  · rcases hp : prevTimeFor m k rank with _ | pv <;>
      rw [hbase _ hp] <;> rfl
  · rcases hp : prevTimeFor m k rank with _ | pv <;> rw [hbase _ hp]
    · simp
    · simp only [decide_eq_true_eq]
      constructor
      · intro h
        exact Or.inr ⟨cur - pv, rfl, by linarith⟩
      · rintro (h | ⟨dlt, hdlt, hneg⟩)
        · cases h
        · rcases Option.some_inj.mp hdlt with rfl
          linarith
  · rfl
  · intro l e hl hf
    have hp : prevTimeFor m k rank = some e.lap := by
      unfold prevTimeFor
      rw [hl]
      show (l.find? (fun p => p.rank == rank)).map PrevEntry.lap = some e.lap
      rw [hf]
      rfl
    rw [hbase _ hp]
    refine ⟨rfl, rfl, ?_⟩
    simp

def exKey : CStr × CStr × CStr := ([115], [99], dryS)

def exPrevMap : List ((CStr × CStr × CStr) × List PrevEntry) :=
  [(exKey, [⟨1, 100, []⟩])]

/-- C8 witness: a concrete previous-PB map where rank 1 of the key has lap
time 100 and the current lap 98 is compared against it. -/
theorem C8_wit :
    (compareSlot exPrevMap exKey 1 98).prev = some 100 ∧
    (compareSlot exPrevMap exKey 1 98).delta = some (98 - 100) ∧
    ((compareSlot exPrevMap exKey 1 98).isNew = true ↔ (98 : ℚ) < 100) := by
  have h := (C8_thm exPrevMap exKey 1 98).2.2.2.2 [⟨1, 100, []⟩] ⟨1, 100, []⟩
    (by with_unfolding_all decide) (by with_unfolding_all decide)
  exact h

/-! ## Per-file classification lemmas -/

theorem minQ?_eq_none (l : List ℚ) : minQ? l = none ↔ l = [] := by
  cases l with
  | nil => simp [minQ?]
  | cons x xs =>
    simp only [minQ?]
    rcases minQ? xs with _ | m <;> simp

theorem minQ?_mem (l : List ℚ) (m : ℚ) (h : minQ? l = some m) : m ∈ l := by
  induction l generalizing m with
  | nil => cases h
  | cons x xs ih =>
    rw [minQ?] at h
    rcases hx : minQ? xs with _ | m'
    · rw [hx] at h
      rcases Option.some_inj.mp h with rfl
      simp
    · rw [hx] at h
      rcases Option.some_inj.mp h with rfl
      rcases le_total x m' with hle | hle
      · rw [min_eq_left hle]
        simp
      · rw [min_eq_right hle]
        exact List.mem_cons_of_mem _ (ih m' hx)

theorem minQ?_le (l : List ℚ) (m : ℚ) (h : minQ? l = some m) :
    ∀ x ∈ l, m ≤ x := by
  induction l generalizing m with
  | nil => cases h
  | cons x xs ih =>
    rw [minQ?] at h
    intro y hy
    rcases hx : minQ? xs with _ | m'
    · rw [hx] at h
      rcases Option.some_inj.mp h with rfl
      rcases List.mem_cons.mp hy with rfl | hy'
      · exact le_refl _
      · exact absurd ((minQ?_eq_none xs).mp hx ▸ hy') (List.not_mem_nil y)
    · rw [hx] at h
      rcases Option.some_inj.mp h with rfl
      rcases List.mem_cons.mp hy with rfl | hy'
      · exact min_le_left _ _
      · exact le_trans (min_le_right _ _) (ih m' hx y hy')

theorem classifyFold_eq (dryB wetB tol : ℚ) (laps : List ℚ) (a b c : List ℚ) :
    laps.foldl
      (fun (acc : List ℚ × List ℚ × List ℚ) lap =>
        match classify_lap lap dryB wetB tol with
        | some .dry => (acc.1 ++ [lap], acc.2.1, acc.2.2)
        | some .wet => (acc.1, acc.2.1 ++ [lap], acc.2.2)
        | some .gap => (acc.1, acc.2.1, acc.2.2 ++ [lap])
        | none => acc)
      (a, b, c) =
      (a ++ laps.filter (fun t => classify_lap t dryB wetB tol == some .dry),
       b ++ laps.filter (fun t => classify_lap t dryB wetB tol == some .wet),
       c ++ laps.filter (fun t => classify_lap t dryB wetB tol == some .gap)) := by
  induction laps generalizing a b c with
  | nil => simp
  | cons t ts ih =>
    rw [List.foldl_cons, List.filter_cons, List.filter_cons, List.filter_cons]
    rcases hc : classify_lap t dryB wetB tol with _ | cond
    · simp [hc, ih]
    · cases cond <;> simp [hc, ih, List.append_assoc]

theorem classify_laps_eq (laps : List ℚ) (dryB wetB tol : ℚ) :
    classify_laps laps dryB wetB tol =
      (minQ? (laps.filter (fun t => classify_lap t dryB wetB tol == some .dry)),
       minQ? (laps.filter (fun t => classify_lap t dryB wetB tol == some .wet)),
       laps.filter (fun t => classify_lap t dryB wetB tol == some .gap)) := by
  unfold classify_laps
  rw [classifyFold_eq]
  simp

/-! ## Bucket-count lemmas -/

theorem addEntry_count (t c : CStr) (upd : TCGroup → TCGroup)
    (f : TCGroup → List LapEntry) (fnew : List LapEntry)
    (hupd : ∀ g, f (upd g) = f g ++ fnew)
    (hempty : f ⟨t, c, [], [], []⟩ = [])
    (data : List TCGroup) (p : LapEntry → Bool) :
    (((addEntry t c upd data).map f).flatten).countP p =
      ((data.map f).flatten).countP p + fnew.countP p := by
  induction data with
  | nil => simp [addEntry, hupd, hempty]
  | cons g gs ih =>
    unfold addEntry
    split_ifs with h
    · simp only [List.map_cons, List.flatten_cons, List.countP_append, hupd]
      omega
    · simp only [List.map_cons, List.flatten_cons, List.countP_append, ih]
      omega

theorem truthy_map_count_le (o : Option ℚ) (src0 s : ℕ) (date : CStr) :
    ((truthyQ o).map (fun tt => (⟨tt, src0, date⟩ : LapEntry))).countP
      (fun en => en.src == s) ≤ (if src0 = s then 1 else 0) := by
  rcases o with _ | t
  · simp [truthyQ]
  · have hred : truthyQ (some t) = (if t = 0 then [] else [t]) := rfl
    rw [hred]
    by_cases h0 : t = 0
    · rw [if_pos h0]
      simp
    · rw [if_neg h0]
      by_cases hs : src0 = s
      · simp [hs, List.countP_cons]
      · simp [hs, List.countP_cons]

theorem buildData_count_le (bench : CStr → CStr → ℚ × ℚ × ℚ)
    (files : List FileRec) (s : ℕ)
    (f : TCGroup → List LapEntry) (fadd : FileRec → List LapEntry)
    (hupd : ∀ acc fr, ((applyFile bench acc fr).map f).flatten.countP
        (fun en => en.src == s) =
      ((acc.map f).flatten).countP (fun en => en.src == s) +
        (fadd fr).countP (fun en => en.src == s))
    (hadd : ∀ fr, (fadd fr).countP (fun en => en.src == s) ≤
      (if fr.src = s then 1 else 0)) :
    ∀ acc : List TCGroup,
      (((files.foldl (applyFile bench) acc).map f).flatten).countP
        (fun en => en.src == s) ≤
      ((acc.map f).flatten).countP (fun en => en.src == s) +
        files.countP (fun fr => fr.src == s) := by
  induction files with
  | nil =>
    intro acc
    simp
  | cons fr fs ih =>
    intro acc
    rw [List.foldl_cons, List.countP_cons]
    have hs := ih (applyFile bench acc fr)
    rw [hupd acc fr] at hs
    have h2 := hadd fr
    by_cases hfs : fr.src = s
    · simp only [hfs, if_pos rfl, beq_self_eq_true, if_true] at h2 ⊢
      omega
    · have : (fr.src == s) = false := by
        rw [beq_eq_false_iff_ne]
        exact hfs
      rw [this]
      simp only [if_neg hfs] at h2
      simp only [Bool.false_eq_true, if_false]
      omega

theorem countP_src_le_one (files : List FileRec)
    (hnd : (files.map FileRec.src).Nodup) (s : ℕ) :
    files.countP (fun fr => fr.src == s) ≤ 1 := by
  have h1 : files.countP (fun fr => fr.src == s) =
      (files.map FileRec.src).countP (fun x => x == s) := by
    rw [List.countP_map]
    rfl
  rw [h1]
  have h2 := List.nodup_iff_count_le_one.mp hnd s
  have h3 : (files.map FileRec.src).count s =
      (files.map FileRec.src).countP (fun x => x == s) := rfl
  rw [h3] at h2
  exact h2

theorem pbSlots_count_same (track car cond : CStr) (n s : ℕ)
    (laps : List LapEntry) :
    (pbSlots track car cond n laps).countP
      (fun sl => sl.src == s && sl.cond == cond) ≤
      laps.countP (fun en => en.src == s) := by
  unfold pbSlots
  rw [List.countP_map]
  have hc : ((fun sl : Slot => sl.src == s && sl.cond == cond) ∘
      mkSlot track car cond) = (fun p : ℕ × LapEntry => p.2.src == s) := by
    funext p
    show ((mkSlot track car cond p).src == s && (mkSlot track car cond p).cond == cond) =
      (p.2.src == s)
    have : ((mkSlot track car cond p).cond == cond) = true := by
      rw [beq_iff_eq]
      rfl
    rw [this]
    simp [mkSlot]
  rw [hc]
  have h1 : (rankFrom 1 ((sortKey LapEntry.lap laps).take n)).countP
      (fun p : ℕ × LapEntry => p.2.src == s) =
      (((rankFrom 1 ((sortKey LapEntry.lap laps).take n)).map Prod.snd).countP
        (fun en => en.src == s)) := by
    rw [List.countP_map]
    rfl
  rw [h1, rankFrom_map_snd]
  calc ((sortKey LapEntry.lap laps).take n).countP (fun en => en.src == s)
      ≤ (sortKey LapEntry.lap laps).countP (fun en => en.src == s) :=
        (List.take_sublist n _).countP_le _
    _ = laps.countP (fun en => en.src == s) :=
        (sortKey_perm LapEntry.lap laps).countP_eq _

theorem pbSlots_count_other (track car cond cond' : CStr)
    (hne : ¬ cond = cond') (n s : ℕ) (laps : List LapEntry) :
    (pbSlots track car cond n laps).countP
      (fun sl => sl.src == s && sl.cond == cond') = 0 := by
  rw [List.countP_eq_zero]
  intro sl hsl
  rcases List.mem_map.mp hsl with ⟨p, _, rfl⟩
  have : ((mkSlot track car cond p).cond == cond') = false := by
    rw [beq_eq_false_iff_ne]
    exact hne
  simp [this]

theorem buildSlots_cons (n : ℕ) (g : TCGroup) (gs : List TCGroup) :
    buildSlots n (g :: gs) =
      (pbSlots g.track g.car dryS n g.dry ++ pbSlots g.track g.car wetS n g.wet) ++
        buildSlots n gs := by
  unfold buildSlots
  rw [List.map_cons, List.flatten_cons]

theorem buildSlots_count_cond (n s : ℕ) (data : List TCGroup)
    (cond : CStr) (f : TCGroup → List LapEntry)
    (hpick : ∀ g : TCGroup,
      (pbSlots g.track g.car dryS n g.dry).countP
          (fun sl => sl.src == s && sl.cond == cond) +
        (pbSlots g.track g.car wetS n g.wet).countP
          (fun sl => sl.src == s && sl.cond == cond) ≤
        (f g).countP (fun en => en.src == s)) :
    (buildSlots n data).countP (fun sl => sl.src == s && sl.cond == cond) ≤
      ((data.map f).flatten).countP (fun en => en.src == s) := by
  induction data with
  | nil => simp [buildSlots]
  | cons g gs ih =>
    rw [buildSlots_cons, List.countP_append, List.countP_append,
      List.map_cons, List.flatten_cons, List.countP_append]
    have := hpick g
    omega

/-! ## Claim C6 -/

/-- C6: `classify_laps` reduces each file to its best (minimum) dry-classified
lap, best wet-classified lap and the gap laps; consequently, when the scanned
files are distinct, each source file contributes at most one entry to the dry
buckets and at most one to the wet buckets across all (track, car) groups,
and therefore occupies at most one dry slot and one wet slot per run, for any
configured PB count. -/
theorem C6_thm (bench : CStr → CStr → ℚ × ℚ × ℚ) (files : List FileRec)
    (hnd : (files.map FileRec.src).Nodup) :
    (∀ laps dryB wetB tol,
      classify_laps laps dryB wetB tol =
        (minQ? (laps.filter (fun t => classify_lap t dryB wetB tol == some .dry)),
         minQ? (laps.filter (fun t => classify_lap t dryB wetB tol == some .wet)),
         laps.filter (fun t => classify_lap t dryB wetB tol == some .gap))) ∧
    (∀ s : ℕ,
      (((buildData bench files).map TCGroup.dry).flatten).countP
        (fun en => en.src == s) ≤ 1 ∧
      (((buildData bench files).map TCGroup.wet).flatten).countP
        (fun en => en.src == s) ≤ 1) ∧
    (∀ n s : ℕ,
      ((buildSlots n (buildData bench files)).filter
        (fun sl => sl.src == s && sl.cond == dryS)).length ≤ 1 ∧
      ((buildSlots n (buildData bench files)).filter
        (fun sl => sl.src == s && sl.cond == wetS)).length ≤ 1) := by
  have hdry : ∀ s : ℕ,
      (((buildData bench files).map TCGroup.dry).flatten).countP
        (fun en => en.src == s) ≤ 1 := by
    intro s
    have h1 := buildData_count_le bench files s TCGroup.dry (dryAdd bench)
      (fun acc fr => by
        unfold applyFile
        exact addEntry_count fr.track fr.car _ TCGroup.dry (dryAdd bench fr)
          (fun g => rfl) rfl acc _)
      (fun fr => by
        unfold dryAdd
        exact truthy_map_count_le _ fr.src s fr.date)
      []
    simp only [List.map_nil, List.flatten_nil, List.countP_nil, Nat.zero_add] at h1
    have h2 := countP_src_le_one files hnd s
    unfold buildData
    omega
  have hwet : ∀ s : ℕ,
      (((buildData bench files).map TCGroup.wet).flatten).countP
        (fun en => en.src == s) ≤ 1 := by
    intro s
    have h1 := buildData_count_le bench files s TCGroup.wet (wetAdd bench)
      (fun acc fr => by
        unfold applyFile
        exact addEntry_count fr.track fr.car _ TCGroup.wet (wetAdd bench fr)
          (fun g => rfl) rfl acc _)
      (fun fr => by
        unfold wetAdd
        exact truthy_map_count_le _ fr.src s fr.date)
      []
    simp only [List.map_nil, List.flatten_nil, List.countP_nil, Nat.zero_add] at h1
    have h2 := countP_src_le_one files hnd s
    unfold buildData
    omega
  refine ⟨fun laps dryB wetB tol => classify_laps_eq laps dryB wetB tol,
    fun s => ⟨hdry s, hwet s⟩, fun n s => ⟨?_, ?_⟩⟩
  · rw [← List.countP_eq_length_filter]
    have hb := buildSlots_count_cond n s (buildData bench files) dryS TCGroup.dry
      (fun g => by
        have ha := pbSlots_count_same g.track g.car dryS n s g.dry
        have hb2 := pbSlots_count_other g.track g.car wetS dryS
          (by decide) n s g.wet
        omega)
    exact le_trans hb (hdry s)
  · rw [← List.countP_eq_length_filter]
    have hb := buildSlots_count_cond n s (buildData bench files) wetS TCGroup.wet
      (fun g => by
        have ha := pbSlots_count_same g.track g.car wetS n s g.wet
        have hb2 := pbSlots_count_other g.track g.car dryS wetS
          (by decide) n s g.dry
        omega)
    exact le_trans hb (hwet s)

def exBench : CStr → CStr → ℚ × ℚ × ℚ := fun _ _ => (100, 140, 1 / 20)

def exFiles : List FileRec :=
  [⟨1, [116], [99], [100], [100, 101, 135]⟩, ⟨2, [116], [99], [100], [103]⟩]

/-- C6 witness: two distinct source files on the same (track, car); each
contributes at most one dry-bucket entry. -/
theorem C6_wit :
    (((buildData exBench exFiles).map TCGroup.dry).flatten).countP
      (fun en => en.src == 1) ≤ 1 :=
  ((C6_thm exBench exFiles (by decide)).2.1 1).1

/-! ## Undo lemmas -/

theorem insDescTs_perm (p : FsEntry × ℕ × ℕ) (l : List (FsEntry × ℕ × ℕ)) :
    List.Perm (insDescTs p l) (p :: l) := by
  induction l with
  | nil => exact List.Perm.refl _
  | cons x xs ih =>
    unfold insDescTs
    split_ifs
    · exact (ih.cons x).trans (List.Perm.swap p x xs)
    · exact List.Perm.refl _

theorem sortDescTs_perm (l : List (FsEntry × ℕ × ℕ)) :
    List.Perm (sortDescTs l) l := by
  induction l with
  | nil => exact List.Perm.refl _
  | cons p ps ih => exact (insDescTs_perm p (sortDescTs ps)).trans (ih.cons p)

theorem insDescTs_pairwise (p : FsEntry × ℕ × ℕ) (l : List (FsEntry × ℕ × ℕ))
    (h : List.Pairwise (fun a b => b.2.1 ≤ a.2.1) l) :
    List.Pairwise (fun a b => b.2.1 ≤ a.2.1) (insDescTs p l) := by
  induction l with
  | nil => simp [insDescTs]
  | cons x xs ih =>
    rcases List.pairwise_cons.mp h with ⟨hx, hxs⟩
    unfold insDescTs
    split_ifs with hlt
    · refine List.pairwise_cons.mpr ⟨?_, ih hxs⟩
      intro y hy
      rcases List.mem_cons.mp ((insDescTs_perm p xs).mem_iff.mp hy) with rfl | hy'
      · exact le_of_lt hlt
      · exact hx y hy'
    · refine List.pairwise_cons.mpr ⟨?_, h⟩
      intro y hy
      rcases List.mem_cons.mp hy with rfl | hy'
      · exact not_lt.mp hlt
      · exact le_trans (hx y hy') (not_lt.mp hlt)

theorem sortDescTs_pairwise (l : List (FsEntry × ℕ × ℕ)) :
    List.Pairwise (fun a b => b.2.1 ≤ a.2.1) (sortDescTs l) := by
  induction l with
  | nil => simp [sortDescTs]
  | cons p ps ih => exact insDescTs_pairwise p (sortDescTs ps) ih

theorem removeByName_length (root : List FsEntry) (e : FsEntry)
    (he : e ∈ root) :
    (removeByName root e.name).length + 1 = root.length := by
  induction root with
  | nil => cases he
  | cons x xs ih =>
    unfold removeByName
    split_ifs with h
    · simp
    · have hne : e ≠ x := by
        intro hh
        subst hh
        exact h (beq_self_eq_true _)
      rcases List.mem_cons.mp he with rfl | he'
      · exact absurd rfl hne
      · simp only [List.length_cons]
        rw [← ih he']

theorem mem_removeByName_of_ne (root : List FsEntry) (n : CStr) (x : FsEntry)
    (hx : x ∈ root) (hne : ¬ x.name = n) : x ∈ removeByName root n := by
  induction root with
  | nil => cases hx
  | cons y ys ih =>
    unfold removeByName
    split_ifs with h
    · rcases List.mem_cons.mp hx with rfl | hx'
      · exact absurd (beq_iff_eq.mp h) hne
      · exact hx'
    · rcases List.mem_cons.mp hx with rfl | hx'
      · exact List.mem_cons_self _ _
      · exact List.mem_cons_of_mem _ (ih hx')

theorem not_mem_removeByName (root : List FsEntry)
    (hnd : (root.map FsEntry.name).Nodup) (e : FsEntry) (he : e ∈ root) :
    e ∉ removeByName root e.name := by
  induction root with
  | nil => cases he
  | cons x xs ih =>
    rw [List.map_cons, List.nodup_cons] at hnd
    unfold removeByName
    split_ifs with h
    · intro hmem
      exact hnd.1 (List.mem_map.mpr ⟨e, hmem, (beq_iff_eq.mp h).symm⟩)
    · have hne : e ≠ x := by
        intro hh
        subst hh
        exact h (beq_self_eq_true _)
      rcases List.mem_cons.mp he with rfl | he'
      · exact absurd rfl hne
      · intro hmem
        rcases List.mem_cons.mp hmem with rfl | hmem'
        · exact hne rfl
        · exact ih hnd.2 he' hmem'

theorem mem_undo_candidates_of_dir (root : List FsEntry) (nm : CStr)
    (fs : List CStr) (ts : ℕ) (hmem : FsEntry.dir nm fs ∈ root)
    (hp : parsePBName nm = some ts) :
    (FsEntry.dir nm fs, ts, (fs.filter (endsWithS extLd)).length) ∈
      get_undo_candidates root := by
  unfold get_undo_candidates
  rw [(sortDescTs_perm _).mem_iff]
  refine List.mem_filterMap.mpr ⟨FsEntry.dir nm fs, hmem, ?_⟩
  show (parsePBName nm).map _ = _
  rw [hp]
  rfl

theorem undo_candidates_sound (root : List FsEntry) (p : FsEntry × ℕ × ℕ)
    (hmem : p ∈ get_undo_candidates root) :
    p.1 ∈ root ∧ p.1.isDirB = true ∧ parsePBName p.1.name = some p.2.1 := by
  unfold get_undo_candidates at hmem
  rw [(sortDescTs_perm _).mem_iff] at hmem
  rcases List.mem_filterMap.mp hmem with ⟨e, he, hfe⟩
  rcases e with nm | ⟨nm, fs⟩
  · have hfe' : (none : Option (FsEntry × ℕ × ℕ)) = some p := hfe
    cases hfe'
  · have hfe' : (parsePBName nm).map
        (fun ts => (FsEntry.dir nm fs, ts,
          (fs.filter (endsWithS extLd)).length)) = some p := hfe
    rcases hpp : parsePBName nm with _ | ts
    · rw [hpp] at hfe'
      cases hfe'
    · rw [hpp] at hfe'
      rcases Option.some_inj.mp hfe' with rfl
      exact ⟨he, rfl, hpp⟩

/-! ## Claim C9 -/

theorem replaceByName_length (root : List FsEntry) (n : CStr) (e : FsEntry) :
    (replaceByName root n e).length = root.length := by
  induction root with
  | nil => rfl
  | cons x xs ih =>
    unfold replaceByName
    split_ifs with h
    · rfl
    · simp only [List.length_cons, ih]

theorem mem_replaceByName_of_ne (root : List FsEntry) (n : CStr)
    (e : FsEntry) (x : FsEntry) (hx : x ∈ root) (hne : ¬ x.name = n) :
    x ∈ replaceByName root n e := by
  induction root with
  | nil => cases hx
  | cons y ys ih =>
    unfold replaceByName
    split_ifs with h
    · rcases List.mem_cons.mp hx with rfl | hx'
      · exact absurd (beq_iff_eq.mp h) hne
      · exact List.mem_cons_of_mem _ hx'
    · rcases List.mem_cons.mp hx with rfl | hx'
      · exact List.mem_cons_self _ _
      · exact List.mem_cons_of_mem _ (ih hx')

theorem mem_replaceByName_self (root : List FsEntry) (n : CStr)
    (e : FsEntry) (x : FsEntry) (hx : x ∈ root) (hn : x.name = n) :
    e ∈ replaceByName root n e := by
  induction root with
  | nil => cases hx
  | cons y ys ih =>
    unfold replaceByName
    split_ifs with h
    · exact List.mem_cons_self _ _
    · rcases List.mem_cons.mp hx with rfl | hx'
      · exact absurd (by rw [hn]; exact beq_self_eq_true n) h
      · exact List.mem_cons_of_mem _ (ih hx')

theorem unlinkAll_all_true (ok : CStr → Bool) (fs : List CStr)
    (h : ∀ n ∈ fs, ok n = true) : unlinkAll ok fs = ([], true) := by
  induction fs with
  | nil => rfl
  | cons n ns ih =>
    unfold unlinkAll
    rw [if_pos (h n (List.mem_cons_self _ _))]
    exact ih (fun m hm => h m (List.mem_cons_of_mem _ hm))

theorem unlinkAll_not_all (ok : CStr → Bool) (fs : List CStr)
    (h : ¬ ∀ n ∈ fs, ok n = true) :
    (unlinkAll ok fs).2 = false ∧ ∃ k, (unlinkAll ok fs).1 = fs.drop k := by
  induction fs with
  | nil => exact absurd (by simp) h
  | cons n ns ih =>
    unfold unlinkAll
    split_ifs with hok
    · have hns : ¬ ∀ m ∈ ns, ok m = true := by
        intro hall
        refine h (fun m hm => ?_)
        rcases List.mem_cons.mp hm with rfl | hm'
        · exact hok
        · exact hall m hm'
      rcases ih hns with ⟨h2, k, hk⟩
      exact ⟨h2, k + 1, hk⟩
    · exact ⟨rfl, 0, rfl⟩

/-- C9: `undo_last_scan` deletes at most the single newest directory matching
the PB naming convention. With no candidates the filesystem is untouched and
no folder is returned. Otherwise the head candidate is a matching directory
of the root whose timestamp is maximal among all matching directories; when
every contained unlink and the final rmdir succeed, the call returns that
folder with the `Deleted` message and the new state is the root with exactly
that one entry removed; when any deletion call fails, the call returns no
folder and the error message, the folder is still present (its contents a
suffix of the originals — deletion stopped at the first failure), the state
has the same number of entries, and in both outcomes every other entry —
older output directories included — is still present with unchanged
contents. -/
theorem C9_thm (root : List FsEntry) (ok : CStr → Bool)
    (hnd : (root.map FsEntry.name).Nodup) :
    (get_undo_candidates root = [] →
      undo_last_scan root ok = (none, UndoMsg.noFolders, root)) ∧
    (∀ e ts fc rest, get_undo_candidates root = (e, ts, fc) :: rest →
      e ∈ root ∧ e.isDirB = true ∧ parsePBName e.name = some ts ∧
      (∀ e' ∈ root, e'.isDirB = true → ∀ ts', parsePBName e'.name = some ts' →
        ts' ≤ ts) ∧
      ∀ nm fs, e = FsEntry.dir nm fs →
        ((∀ n ∈ fs, ok n = true) → ok nm = true →
          undo_last_scan root ok =
            (some e, UndoMsg.deleted nm fc, removeByName root nm) ∧
          e ∉ (undo_last_scan root ok).2.2 ∧
          ((undo_last_scan root ok).2.2).length + 1 = root.length ∧
          (∀ e' ∈ root, e' ≠ e → e' ∈ (undo_last_scan root ok).2.2)) ∧
        (¬ ((∀ n ∈ fs, ok n = true) ∧ ok nm = true) →
          (undo_last_scan root ok).1 = none ∧
          (undo_last_scan root ok).2.1 = UndoMsg.errorDeleting ∧
          (∃ k, FsEntry.dir nm (fs.drop k) ∈ (undo_last_scan root ok).2.2) ∧
          ((undo_last_scan root ok).2.2).length = root.length ∧
          (∀ e' ∈ root, e' ≠ e → e' ∈ (undo_last_scan root ok).2.2))) := by
  constructor
  · intro h
    unfold undo_last_scan
    rw [h]
  · intro e ts fc rest hcand
    have hsound := undo_candidates_sound root (e, ts, fc)
      (hcand ▸ List.mem_cons_self _ _)
    have hmax : ∀ e' ∈ root, e'.isDirB = true → ∀ ts',
        parsePBName e'.name = some ts' → ts' ≤ ts := by
      intro e' he' hdir ts' hp'
      rcases e' with nm | ⟨nm, fs⟩
      · cases hdir
      · have hin := mem_undo_candidates_of_dir root nm fs ts' he' hp'
        rw [hcand] at hin
        rcases List.mem_cons.mp hin with heq | hin'
        · exact le_of_eq (congrArg (fun q : FsEntry × ℕ × ℕ => q.2.1) heq)
        · have hpw := sortDescTs_pairwise (root.filterMap (fun x =>
            match x with
            | .file _ => none
            | .dir nm2 fs2 => (parsePBName nm2).map
                (fun ts2 => (x, ts2, (fs2.filter (endsWithS extLd)).length))))
          have hcand' : get_undo_candidates root = (e, ts, fc) :: rest := hcand
          unfold get_undo_candidates at hcand'
          rw [hcand'] at hpw
          exact (List.pairwise_cons.mp hpw).1 _ hin'
    refine ⟨hsound.1, hsound.2.1, hsound.2.2, hmax, ?_⟩
    intro nm fs heq
    subst heq
    have hred : undo_last_scan root ok =
        (if (unlinkAll ok fs).2 && ok nm then
          (some (FsEntry.dir nm fs), UndoMsg.deleted nm fc,
            removeByName root nm)
        else (none, UndoMsg.errorDeleting,
          replaceByName root nm (FsEntry.dir nm (unlinkAll ok fs).1))) := by
      unfold undo_last_scan
      rw [hcand]
    constructor
    · intro hall hok
      have hc : ((unlinkAll ok fs).2 && ok nm) = true := by
        rw [unlinkAll_all_true ok fs hall, hok]
        rfl
      rw [if_pos hc] at hred
      refine ⟨hred, ?_, ?_, ?_⟩
      · rw [hred]
        exact not_mem_removeByName root hnd _ hsound.1
      · rw [hred]
        exact removeByName_length root _ hsound.1
      · intro e' he' hne
        rw [hred]
        have hnames : ¬ e'.name = nm := by
          intro hh
          exact hne (List.inj_on_of_nodup_map hnd he' hsound.1 hh)
        exact mem_removeByName_of_ne root nm e' he' hnames
    · intro hfail
      have h2 : ((unlinkAll ok fs).2 && ok nm) = false := by
        by_cases hall : ∀ n ∈ fs, ok n = true
        · rw [unlinkAll_all_true ok fs hall]
          cases hoknm : ok nm
          · rfl
          · exact absurd ⟨hall, hoknm⟩ hfail
        · rw [(unlinkAll_not_all ok fs hall).1]
          rfl
      rw [if_neg (by simp [h2])] at hred
      refine ⟨by rw [hred], by rw [hred], ?_, ?_, ?_⟩
      · have hsuf : ∃ k, (unlinkAll ok fs).1 = fs.drop k := by
          by_cases hall : ∀ n ∈ fs, ok n = true
          · exact ⟨fs.length, by rw [unlinkAll_all_true ok fs hall]; simp⟩
          · exact (unlinkAll_not_all ok fs hall).2
        rcases hsuf with ⟨k, hk⟩
        refine ⟨k, ?_⟩
        rw [hred, ← hk]
        exact mem_replaceByName_self root nm _ _ hsound.1 rfl
      · rw [hred]
        exact replaceByName_length root nm _
      · intro e' he' hne
        rw [hred]
        have hnames : ¬ e'.name = nm := by
          intro hh
          exact hne (List.inj_on_of_nodup_map hnd he' hsound.1 hh)
        exact mem_replaceByName_of_ne root nm _ e' he' hnames

def pbName1 : CStr := "PBs_2024-01-01_120000".toList.map Char.toNat

def pbName2 : CStr := "PBs_2024-03-01_120000".toList.map Char.toNat

def exRoot9 : List FsEntry :=
  [FsEntry.dir pbName1 [], FsEntry.file (120 :: extLd), FsEntry.dir pbName2 []]

/-- C9 witness: on a root with two PB folders and a stray file, with every
deletion succeeding, undo returns the newer folder with the `Deleted`
message and the state drops exactly that entry; and with the rmdir failing
it returns no folder with the error message. -/
theorem C9_wit :
    (undo_last_scan exRoot9 (fun _ => true) =
      (some (FsEntry.dir pbName2 []), UndoMsg.deleted pbName2 0,
        removeByName exRoot9 pbName2) ∧
      ((undo_last_scan exRoot9 (fun _ => true)).2.2).length + 1 =
        exRoot9.length) ∧
    (undo_last_scan exRoot9 (fun _ => false)).1 = none ∧
    (undo_last_scan exRoot9 (fun _ => false)).2.1 =
      UndoMsg.errorDeleting := by
  have h := (C9_thm exRoot9 (fun _ => true) (by decide)).2
    (FsEntry.dir pbName2 []) (tsEncode 2024 3 1 12 0 0) 0
    [(FsEntry.dir pbName1 [], tsEncode 2024 1 1 12 0 0, 0)] (by decide)
  have hs := (h.2.2.2.2 pbName2 [] rfl).1 (by intro n hn; cases hn) rfl
  have h' := (C9_thm exRoot9 (fun _ => false) (by decide)).2
    (FsEntry.dir pbName2 []) (tsEncode 2024 3 1 12 0 0) 0
    [(FsEntry.dir pbName1 [], tsEncode 2024 1 1 12 0 0, 0)] (by decide)
  have hf := (h'.2.2.2.2 pbName2 [] rfl).2 (by intro hc; exact absurd hc.2 (by decide))
  exact ⟨⟨hs.1, hs.2.2.1⟩, hf.1, hf.2.1⟩

/-! ## Cleanup lemmas -/

theorem filter_split_length (p : α → Bool) (l : List α) :
    (l.filter p).length + (l.filter (fun a => !p a)).length = l.length := by
  induction l with
  | nil => rfl
  | cons x xs ih =>
    by_cases hx : p x = true <;> simp [List.filter_cons, hx, ← ih] <;> omega

theorem cleanup_fold_counts (ok : CStr → Bool) (cands : List FsEntry) :
    ∀ st : ℕ × ℕ × List CStr × List FsEntry,
      (cands.foldl (cleanupStep ok) st).1 =
        st.1 + (cands.filter (fun e => unlinkOk ok e)).length ∧
      (cands.foldl (cleanupStep ok) st).2.1 =
        st.2.1 + (cands.filter (fun e => !unlinkOk ok e)).length ∧
      (cands.foldl (cleanupStep ok) st).2.2.1.length =
        st.2.2.1.length + (cands.filter (fun e => !unlinkOk ok e)).length := by
  induction cands with
  | nil =>
    intro st
    simp
  | cons e es ih =>
    intro st
    rw [List.foldl_cons]
    by_cases hok : unlinkOk ok e = true
    · have hs : cleanupStep ok st e =
          (st.1 + 1, st.2.1, st.2.2.1, removeByName st.2.2.2 e.name) := by
        unfold cleanupStep
        rw [if_pos hok]
      have h := ih (cleanupStep ok st e)
      rw [hs] at h ⊢
      simp only [List.filter_cons, hok, Bool.not_true, if_true,
        Bool.false_eq_true, if_false, List.length_cons] at h ⊢
      omega
    · have hs : cleanupStep ok st e =
          (st.1, st.2.1 + 1, st.2.2.1 ++ [e.name], st.2.2.2) := by
        unfold cleanupStep
        rw [if_neg hok]
      have h := ih (cleanupStep ok st e)
      rw [hs] at h ⊢
      have hok' : unlinkOk ok e = false := by
        simpa using hok
      simp only [List.filter_cons, hok', Bool.not_false, if_true,
        Bool.false_eq_true, if_false, List.length_cons, List.length_append,
        List.length_singleton, List.length_nil] at h ⊢
      omega

/-! ## Claim C10 -/

def exRoot10 : List FsEntry :=
  [FsEntry.dir (102 :: extLd) [], FsEntry.file (97 :: extLd)]

/-- C10 counterexample: `Path.glob('*.ld')` also matches a directory named
like `f.ld`; such a directory sits in the candidate set even though it is not
a file, so the candidate set does not consist only of files. -/
theorem C10_cex :
    FsEntry.dir (102 :: extLd) [] ∈ get_cleanup_candidates exRoot10 ∧
    (FsEntry.dir (102 :: extLd) []).isDirB = true := by
  refine ⟨by decide, rfl⟩

/-- C10 amended: the cleanup candidate set consists exactly of the directory
entries (files or directories) sitting directly in the caller-supplied root
whose name matches `*.ld` or `*.ldx` — so it never contains anything located
inside a subdirectory, in particular nothing inside an output (`PBs_`)
directory; executing cleanup attempts to delete exactly that candidate set,
continues past individual deletion failures, and returns success and failure
counts and an error list with success + failure = number of candidates and
one error entry per failure. -/
theorem C10_thm (root : List FsEntry) (ok : CStr → Bool) :
    (∀ e, e ∈ get_cleanup_candidates root ↔
      e ∈ root ∧ (endsWithS extLd e.name = true ∨ endsWithS extLdx e.name = true)) ∧
    (cleanup_old_files root ok).1 =
      ((get_cleanup_candidates root).filter (fun e => unlinkOk ok e)).length ∧
    (cleanup_old_files root ok).2.1 =
      ((get_cleanup_candidates root).filter (fun e => !unlinkOk ok e)).length ∧
    (cleanup_old_files root ok).1 + (cleanup_old_files root ok).2.1 =
      (get_cleanup_candidates root).length ∧
    (cleanup_old_files root ok).2.2.1.length = (cleanup_old_files root ok).2.1 := by
  have hc := cleanup_fold_counts ok (get_cleanup_candidates root) (0, 0, [], root)
  have h1 : (cleanup_old_files root ok).1 =
      ((get_cleanup_candidates root).filter (fun e => unlinkOk ok e)).length := by
    unfold cleanup_old_files
    rw [hc.1]
    simp
  have h2 : (cleanup_old_files root ok).2.1 =
      ((get_cleanup_candidates root).filter (fun e => !unlinkOk ok e)).length := by
    unfold cleanup_old_files
    rw [hc.2.1]
    simp
  have h3 : (cleanup_old_files root ok).2.2.1.length =
      ((get_cleanup_candidates root).filter (fun e => !unlinkOk ok e)).length := by
    unfold cleanup_old_files
    rw [hc.2.2]
    simp
  refine ⟨?_, h1, h2, ?_, by rw [h3, h2]⟩
  · intro e
    unfold get_cleanup_candidates
    rw [List.mem_append, List.mem_filter, List.mem_filter]
    constructor
    · rintro (⟨hr, hl⟩ | ⟨hr, hl⟩)
      · exact ⟨hr, Or.inl hl⟩
      · exact ⟨hr, Or.inr hl⟩
    · rintro ⟨hr, hl | hl⟩
      · exact Or.inl ⟨hr, hl⟩
      · exact Or.inr ⟨hr, hl⟩
  · rw [h1, h2]
    exact filter_split_length _ _

/-! ## Claim C2 -/

/-- C2 counterexample: the round trip fails as universally stated. (1) For
rank 10 the generated ordinal is `10th` but the parser reads back only its
first character, recovering rank 1. (2) For a track name containing an
underscore (`mount_panorama`) the parser recovers only the first
underscore-separated component as the track. (3) The date is recovered in
dash form (`2024-01-02`), not the original dotted `YYYY.MM.DD` string. -/
theorem C2_cex :
    ((parse_pb_filename (generate_pb_filename spaT carC dryS 10 100 dateD)).map
        PBInfo.rank = some 1 ∧ (1 : ℕ) ≠ 10) ∧
    ((parse_pb_filename
        (generate_pb_filename mountPanoramaT carC dryS 1 100 dateD)).map
        PBInfo.track = some mountT ∧ mountT ≠ mountPanoramaT) ∧
    ((parse_pb_filename (generate_pb_filename spaT carC dryS 1 100 dateD)).map
        PBInfo.date = some dateDash ∧ dateDash ≠ dateD) := by
  refine ⟨⟨?_, by decide⟩, ⟨?_, by decide⟩, ⟨?_, by decide⟩⟩ <;>
    with_unfolding_all decide

/-! ## Digit-string lemmas -/

theorem natToDigits_digits (n : ℕ) : ∀ c ∈ natToDigits n, 48 ≤ c ∧ c ≤ 57 := by
  induction n using Nat.strong_induction_on with
  | _ n ih =>
    rw [natToDigits]
    split_ifs with h
    · intro c hc
      rcases List.mem_singleton.mp hc with rfl
      omega
    · intro c hc
      rcases List.mem_append.mp hc with hc' | hc'
      · exact ih (n / 10) (Nat.div_lt_self (by omega) (by omega)) c hc'
      · rcases List.mem_singleton.mp hc' with rfl
        have := Nat.mod_lt n (show 0 < 10 by omega)
        omega

theorem natToDigits_ne_nil (n : ℕ) : natToDigits n ≠ [] := by
  rw [natToDigits]
  split_ifs with h
  · simp
  · simp

theorem natOfDigits_concat (a : CStr) (d : ℕ) :
    natOfDigits (a ++ [d]) = 10 * natOfDigits a + (d - 48) := by
  unfold natOfDigits
  rw [List.foldl_append]
  rfl

theorem natOfDigits_natToDigits (n : ℕ) : natOfDigits (natToDigits n) = n := by
  induction n using Nat.strong_induction_on with
  | _ n ih =>
    rw [natToDigits]
    split_ifs with h
    · show List.foldl _ 0 [48 + n] = n
      show 10 * 0 + (48 + n - 48) = n
      omega
    · rw [natOfDigits_concat, ih (n / 10) (Nat.div_lt_self (by omega) (by omega))]
      omega

theorem natOfDigits_cons_zero (t : CStr) : natOfDigits (48 :: t) = natOfDigits t := by
  unfold natOfDigits
  rw [List.foldl_cons]

theorem natOfDigits_replicate_zero (k : ℕ) (ds : CStr) :
    natOfDigits (List.replicate k 48 ++ ds) = natOfDigits ds := by
  induction k with
  | zero => simp
  | succ k ih =>
    rw [List.replicate_succ, List.cons_append, natOfDigits_cons_zero, ih]

theorem natToDigits_length_le (k : ℕ) : ∀ n : ℕ, 0 < k → n < 10 ^ k →
    (natToDigits n).length ≤ k := by
  induction k with
  | zero =>
    intro n hk _
    omega
  | succ k ih =>
    intro n _ hn
    rw [natToDigits]
    split_ifs with h
    · simp
    · rcases Nat.eq_zero_or_pos k with rfl | hk
      · omega
      · have hdiv : n / 10 < 10 ^ k := by
          rw [Nat.div_lt_iff_lt_mul (by omega)]
          calc n < 10 ^ (k + 1) := hn
            _ = 10 ^ k * 10 := by ring
        have := ih (n / 10) hk hdiv
        simp only [List.length_append, List.length_singleton]
        omega

theorem pad3_length (b : ℕ) (hb : b < 1000) : (pad3 b).length = 3 := by
  unfold pad3
  have h3 : (natToDigits b).length ≤ 3 :=
    natToDigits_length_le 3 b (by omega) (by omega)
  rw [List.length_append, List.length_replicate]
  omega

theorem pad3_digits (b : ℕ) : ∀ c ∈ pad3 b, 48 ≤ c ∧ c ≤ 57 := by
  intro c hc
  rcases List.mem_append.mp hc with hc' | hc'
  · rcases List.eq_of_mem_replicate hc' with rfl
    omega
  · exact natToDigits_digits b c hc'

theorem natOfDigits_pad3 (b : ℕ) : natOfDigits (pad3 b) = b := by
  unfold pad3
  rw [natOfDigits_replicate_zero, natOfDigits_natToDigits]

theorem pad3_ne_nil (b : ℕ) : pad3 b ≠ [] := by
  unfold pad3
  intro h
  rcases List.append_eq_nil.mp h with ⟨_, h2⟩
  exact natToDigits_ne_nil b h2

/-! ## Split and join lemmas -/

theorem splitStr_ne_nil (sep : ℕ) (s : CStr) : splitStr sep s ≠ [] := by
  cases s with
  | nil => simp [splitStr]
  | cons c cs =>
    unfold splitStr
    split_ifs
    · simp
    · rcases h : splitStr sep cs with _ | ⟨p, ps⟩ <;> simp

theorem joinStr_cons_of_ne_nil (sep : ℕ) (p : CStr) (ps : List CStr)
    (h : ps ≠ []) : joinStr sep (p :: ps) = p ++ sep :: joinStr sep ps := by
  cases ps with
  | nil => exact absurd rfl h
  | cons q qs => rfl

theorem join_split (sep : ℕ) (s : CStr) :
    joinStr sep (splitStr sep s) = s := by
  induction s with
  | nil => rfl
  | cons c cs ih =>
    unfold splitStr
    split_ifs with h
    · rw [joinStr_cons_of_ne_nil sep [] _ (splitStr_ne_nil sep cs), ih,
        List.nil_append, h]
    · rcases hs : splitStr sep cs with _ | ⟨p, ps⟩
      · exact absurd hs (splitStr_ne_nil sep cs)
      · rw [hs] at ih
        cases ps with
        | nil =>
          show c :: p = c :: cs
          rw [show joinStr sep [p] = p from rfl] at ih
          rw [ih]
        | cons q qs =>
          rw [joinStr_cons_of_ne_nil sep (c :: p) _ (by simp),
            joinStr_cons_of_ne_nil sep p _ (by simp)] at *
          rw [List.cons_append, ih]

theorem splitStr_sep_not_mem (sep : ℕ) (s : CStr) :
    ∀ p ∈ splitStr sep s, sep ∉ p := by
  induction s with
  | nil =>
    intro p hp
    rcases List.mem_singleton.mp hp with rfl
    simp
  | cons c cs ih =>
    unfold splitStr
    split_ifs with h
    · intro p hp
      rcases List.mem_cons.mp hp with rfl | hp'
      · simp
      · exact ih p hp'
    · rcases hs : splitStr sep cs with _ | ⟨q, qs⟩
      · exact absurd hs (splitStr_ne_nil sep cs)
      · intro p hp
        rcases List.mem_cons.mp hp with rfl | hp'
        · intro hmem
          rcases List.mem_cons.mp hmem with rfl | hmem'
          · exact h rfl
          · exact ih q (hs ▸ List.mem_cons_self _ _) hmem'
        · exact ih p (hs ▸ List.mem_cons_of_mem _ hp')

theorem splitStr_no_sep (sep : ℕ) (s : CStr) (h : sep ∉ s) :
    splitStr sep s = [s] := by
  induction s with
  | nil => rfl
  | cons c cs ih =>
    have hc : ¬ c = sep := by
      intro hh
      exact h (by rw [hh]; exact List.mem_cons_self _ _)
    rw [splitStr, if_neg hc, ih (fun hh => h (List.mem_cons_of_mem _ hh))]

theorem splitStr_append_sep (sep : ℕ) (a t : CStr) (h : sep ∉ a) :
    splitStr sep (a ++ sep :: t) = a :: splitStr sep t := by
  induction a with
  | nil =>
    show splitStr sep (sep :: t) = [] :: splitStr sep t
    rw [splitStr, if_pos rfl]
  | cons c cs ih =>
    have hc : ¬ c = sep := by
      intro hh
      exact h (by rw [hh]; exact List.mem_cons_self _ _)
    show splitStr sep (c :: (cs ++ sep :: t)) = (c :: cs) :: splitStr sep t
    rw [splitStr, if_neg hc, ih (fun hh => h (List.mem_cons_of_mem _ hh))]

theorem split_join (sep : ℕ) (ps : List CStr) (hne : ps ≠ [])
    (hfree : ∀ p ∈ ps, sep ∉ p) :
    splitStr sep (joinStr sep ps) = ps := by
  induction ps with
  | nil => exact absurd rfl hne
  | cons p qs ih =>
    cases qs with
    | nil =>
      show splitStr sep p = [p]
      exact splitStr_no_sep sep p (hfree p (List.mem_cons_self _ _))
    | cons q qs' =>
      rw [joinStr_cons_of_ne_nil sep p _ (by simp)]
      rw [splitStr_append_sep sep p _ (hfree p (List.mem_cons_self _ _))]
      rw [ih (by simp) (fun r hr => hfree r (List.mem_cons_of_mem _ hr))]

/-! ## Extension, index and scan lemmas -/

theorem dropExt_ld (x : CStr) : dropExt (x ++ extLd) = x := by
  have he : extLd = [46, 108, 100] := by decide
  rw [he]
  unfold dropExt
  have h1 : (x ++ [46, 108, 100]).reverse = 100 :: 108 :: 46 :: x.reverse := by
    simp
  rw [h1]
  have h2 : (100 :: 108 :: 46 :: x.reverse).dropWhile (fun c => !(c == 46)) =
      46 :: x.reverse := by
    rw [List.dropWhile_cons_of_pos (by decide), List.dropWhile_cons_of_pos (by decide),
      List.dropWhile_cons_of_neg (by decide)]
  rw [h2]
  simp

theorem findIdxS_spec (p : α → Bool) (l₁ : List α) (x : α) (l₂ : List α)
    (h1 : ∀ y ∈ l₁, p y = false) (hx : p x = true) :
    findIdxS p (l₁ ++ x :: l₂) = some l₁.length := by
  induction l₁ with
  | nil =>
    show findIdxS p (x :: l₂) = some 0
    unfold findIdxS
    rw [if_pos hx]
  | cons y ys ih =>
    show findIdxS p (y :: (ys ++ x :: l₂)) = some (ys.length + 1)
    unfold findIdxS
    rw [if_neg (by rw [h1 y (List.mem_cons_self _ _)]; simp)]
    rw [ih (fun z hz => h1 z (List.mem_cons_of_mem _ hz))]
    rfl

theorem nthStr_append_head (l₁ l₂ : List α) :
    nthStr (l₁ ++ l₂) l₁.length = l₂.head? := by
  unfold nthStr
  rw [List.drop_left]

theorem drop_append_len (l₁ l₂ : List α) (k : ℕ) :
    (l₁ ++ l₂).drop (l₁.length + k) = l₂.drop k := by
  induction l₁ with
  | nil => simp
  | cons y ys ih =>
    show (y :: (ys ++ l₂)).drop (ys.length + 1 + k) = l₂.drop k
    rw [show ys.length + 1 + k = (ys.length + k) + 1 by omega]
    rw [List.drop_succ_cons, ih]

theorem nthStr_append_at (l₁ l₂ : List α) (k : ℕ) :
    nthStr (l₁ ++ l₂) (l₁.length + k) = nthStr l₂ k := by
  unfold nthStr
  rw [drop_append_len]

theorem takeWhile_all_stop (p : α → Bool) (l₁ : List α) (x : α) (l₂ : List α)
    (h1 : ∀ c ∈ l₁, p c = true) (hx : p x = false) :
    (l₁ ++ x :: l₂).takeWhile p = l₁ := by
  induction l₁ with
  | nil =>
    show (x :: l₂).takeWhile p = []
    rw [List.takeWhile_cons_of_neg (by rw [hx]; simp)]
  | cons c cs ih =>
    show ((c :: cs) ++ x :: l₂).takeWhile p = c :: cs
    rw [List.cons_append, List.takeWhile_cons_of_pos (h1 c (List.mem_cons_self _ _))]
    rw [ih (fun d hd => h1 d (List.mem_cons_of_mem _ hd))]

theorem getLastD_concat_any (l : List CStr) (x : CStr) :
    ∀ d, (l ++ [x]).getLastD d = x := by
  induction l with
  | nil =>
    intro d
    rfl
  | cons y ys ih =>
    intro d
    rw [List.cons_append, List.getLastD_cons, ih y]

/-! ## Lap-time rendering and re-parsing -/

theorem isDigitN_of_digit (c : ℕ) (h : 48 ≤ c ∧ c ≤ 57) : isDigitN c = true := by
  unfold isDigitN
  exact decide_eq_true h

theorem isDigitDot_of_digit (c : ℕ) (h : 48 ≤ c ∧ c ≤ 57) :
    isDigitDot c = true := by
  unfold isDigitDot
  rw [isDigitN_of_digit c h]
  rfl

theorem parseFloat_shape (A B : CStr) (hAne : A ≠ []) (hA46 : 46 ∉ A)
    (hB46 : 46 ∉ B) :
    parseFloat (A ++ 46 :: B) =
      some ((natOfDigits A : ℚ) + (natOfDigits B : ℚ) / (10 : ℚ) ^ B.length) := by
  unfold parseFloat
  rw [splitStr_append_sep 46 A B hA46, splitStr_no_sep 46 B hB46]
  show (if A = [] ∧ B = [] then none else some _) = _
  rw [if_neg (by rintro ⟨h1, _⟩; exact hAne h1)]

theorem matchAfterM_shape (d1 A B : CStr) (hAne : A ≠ [])
    (hA : ∀ c ∈ A, 48 ≤ c ∧ c ≤ 57) (hB : ∀ c ∈ B, 48 ≤ c ∧ c ≤ 57) :
    matchAfterM d1 ((A ++ 46 :: B) ++ [115]) =
      some ((natOfDigits d1 : ℚ) * 60 +
        ((natOfDigits A : ℚ) + (natOfDigits B : ℚ) / (10 : ℚ) ^ B.length)) := by
  have htake : ((A ++ 46 :: B) ++ [115]).takeWhile isDigitDot = A ++ 46 :: B := by
    refine takeWhile_all_stop isDigitDot (A ++ 46 :: B) 115 [] ?_ (by decide)
    intro c hc
    rcases List.mem_append.mp hc with hc' | hc'
    · exact isDigitDot_of_digit c (hA c hc')
    · rcases List.mem_cons.mp hc' with rfl | hc''
      · decide
      · exact isDigitDot_of_digit c (hB c hc'')
  have hne : A ++ 46 :: B ≠ [] := by
    intro h
    rcases List.append_eq_nil.mp h with ⟨_, h2⟩
    cases h2
  have hdrop : ((A ++ 46 :: B) ++ [115]).drop (A ++ 46 :: B).length = [115] :=
    List.drop_left _ _
  unfold matchAfterM
  rw [htake, if_neg hne, hdrop]
  show (if (115 : ℕ) = 115 then
    (parseFloat (A ++ 46 :: B)).map
      (fun sec => (natOfDigits d1 : ℚ) * 60 + sec) else none) = _
  rw [if_pos rfl, parseFloat_shape A B hAne
    (fun hc => by have := hA 46 hc; omega)
    (fun hc => by have := hB 46 hc; omega)]
  rfl

theorem matchLapStr_shape (d1 A B : CStr) (hd1ne : d1 ≠ [])
    (hd1 : ∀ c ∈ d1, 48 ≤ c ∧ c ≤ 57) (hAne : A ≠ [])
    (hA : ∀ c ∈ A, 48 ≤ c ∧ c ≤ 57) (hB : ∀ c ∈ B, 48 ≤ c ∧ c ≤ 57) :
    matchLapStr (d1 ++ (109 :: ((A ++ 46 :: B) ++ [115]))) =
      some ((natOfDigits d1 : ℚ) * 60 +
        ((natOfDigits A : ℚ) + (natOfDigits B : ℚ) / (10 : ℚ) ^ B.length)) := by
  have htake : (d1 ++ (109 :: ((A ++ 46 :: B) ++ [115]))).takeWhile isDigitN = d1 :=
    takeWhile_all_stop isDigitN d1 109 ((A ++ 46 :: B) ++ [115])
      (fun c hc => isDigitN_of_digit c (hd1 c hc)) (by decide)
  have hdrop : (d1 ++ (109 :: ((A ++ 46 :: B) ++ [115]))).drop d1.length =
      109 :: ((A ++ 46 :: B) ++ [115]) := List.drop_left _ _
  unfold matchLapStr
  rw [htake, if_neg hd1ne, hdrop]
  show (if (109 : ℕ) = 109 then matchAfterM d1 ((A ++ 46 :: B) ++ [115])
    else none) = _
  rw [if_pos rfl, matchAfterM_shape d1 A B hAne hA hB]

theorem format_lap_props (t : ℚ) (ht : 0 ≤ t) :
    (95 : ℕ) ∉ format_lap_time_filename t ∧
    matchLapStr (format_lap_time_filename t) =
      some ((pyRound (t * 1000) : ℚ) / 1000) := by
  have hfl0 : (0 : ℤ) ≤ ⌊t / 60⌋ := Int.floor_nonneg.mpr (by positivity)
  have heq60 : (60 : ℚ) * (t / 60) = t := by
    field_simp
  have hsecs0 : (0 : ℚ) ≤ t - 60 * (⌊t / 60⌋ : ℚ) := by
    have h1 : ((⌊t / 60⌋ : ℤ) : ℚ) ≤ t / 60 := Int.floor_le _
    nlinarith
  have hsecs60 : t - 60 * (⌊t / 60⌋ : ℚ) < 60 := by
    have h1 : t / 60 < ((⌊t / 60⌋ : ℤ) : ℚ) + 1 := Int.lt_floor_add_one _
    nlinarith
  have hmsZ0 : 0 ≤ pyRound ((t - 60 * (⌊t / 60⌋ : ℚ)) * 1000) := by
    apply le_pyRound
    push_cast
    nlinarith
  have hmsZle : pyRound ((t - 60 * (⌊t / 60⌋ : ℚ)) * 1000) ≤ 60000 := by
    apply pyRound_le
    push_cast
    nlinarith
  obtain ⟨msN, hmsN⟩ : ∃ n : ℕ,
      (pyRound ((t - 60 * (⌊t / 60⌋ : ℚ)) * 1000)).toNat = n := ⟨_, rfl⟩
  obtain ⟨flN, hflN⟩ : ∃ n : ℕ, (⌊t / 60⌋).toNat = n := ⟨_, rfl⟩
  have hmsNZ : (msN : ℤ) = pyRound ((t - 60 * (⌊t / 60⌋ : ℚ)) * 1000) := by
    rw [← hmsN]
    exact Int.toNat_of_nonneg hmsZ0
  have hflNZ : (flN : ℤ) = ⌊t / 60⌋ := by
    rw [← hflN]
    exact Int.toNat_of_nonneg hfl0
  have hform : format_lap_time_filename t =
      natToDigits flN ++ (109 ::
        ((natToDigits (msN / 1000) ++ 46 :: pad3 (msN % 1000)) ++ [115])) := by
    simp only [format_lap_time_filename, intToDigits]
    rw [if_neg (by omega), hmsN, hflN]
    simp [List.append_assoc]
  have hb1000 : msN % 1000 < 1000 := Nat.mod_lt _ (by omega)
  constructor
  · rw [hform]
    intro hmem
    simp at hmem
    rcases hmem with h | h | h
    · have := natToDigits_digits flN 95 h
      omega
    · have := natToDigits_digits (msN / 1000) 95 h
      omega
    · have := pad3_digits (msN % 1000) 95 h
      omega
  · rw [hform]
    rw [matchLapStr_shape (natToDigits flN) (natToDigits (msN / 1000))
      (pad3 (msN % 1000)) (natToDigits_ne_nil flN) (natToDigits_digits flN)
      (natToDigits_ne_nil _) (natToDigits_digits _) (pad3_digits _)]
    rw [natOfDigits_natToDigits, natOfDigits_natToDigits, natOfDigits_pad3,
      pad3_length _ hb1000]
    have hpr : pyRound (t * 1000) = (msN : ℤ) + 60000 * (flN : ℤ) := by
      have hflQ : ((flN : ℕ) : ℚ) = (⌊t / 60⌋ : ℚ) := by
        exact_mod_cast congrArg (fun z : ℤ => (z : ℚ)) hflNZ
      have harg : t * 1000 =
          (t - 60 * (⌊t / 60⌋ : ℚ)) * 1000 + ((60000 * (flN : ℤ) : ℤ) : ℚ) := by
        push_cast
        rw [hflQ]
        ring
      rw [harg, pyRound_add_int _ _ (by omega), ← hmsNZ]
    have hdm : 1000 * (msN / 1000) + msN % 1000 = msN := Nat.div_add_mod msN 1000
    have hdmQ : 1000 * ((msN / 1000 : ℕ) : ℚ) + ((msN % 1000 : ℕ) : ℚ) =
        (msN : ℚ) := by
      exact_mod_cast congrArg (fun n : ℕ => (n : ℚ)) hdm
    rw [hpr]
    congr 1
    push_cast
    rw [show ((10 : ℚ) ^ 3) = 1000 by norm_num]
    field_simp
    linarith

theorem splitStr_append_sep_gen (sep : ℕ) (a t : CStr) :
    splitStr sep (a ++ sep :: t) = splitStr sep a ++ splitStr sep t := by
  induction a with
  | nil =>
    show splitStr sep (sep :: t) = [[]] ++ splitStr sep t
    rw [splitStr, if_pos rfl]
    rfl
  | cons c cs ih =>
    by_cases hc : c = sep
    · show splitStr sep (c :: (cs ++ sep :: t)) =
        splitStr sep (c :: cs) ++ splitStr sep t
      rw [splitStr, if_pos hc, ih, splitStr, if_pos hc]
      rfl
    · rcases hs : splitStr sep cs with _ | ⟨p, ps⟩
      · exact absurd hs (splitStr_ne_nil sep cs)
      · show splitStr sep (c :: (cs ++ sep :: t)) =
          splitStr sep (c :: cs) ++ splitStr sep t
        rw [splitStr, if_neg hc, ih, hs, splitStr, if_neg hc, hs]
        rfl

/-- C2 (amended): for a track name free of underscores that is not itself a
condition word, a car name none of whose underscore-separated parts is a
condition word, a condition that is exactly `dry` or `wet`, a rank between 1
and 9, a nonnegative lap time and an underscore-free date, parsing the
generated PB filename recovers the track, car, condition and rank exactly,
recovers the date with its dots replaced by dashes, and recovers the lap
time rounded to the nearest millisecond (hence within 1/2000 s of the
original). -/
theorem C2_thm (track car cond : CStr) (rank : ℕ) (lap : ℚ) (date : CStr)
    (htrack : (95 : ℕ) ∉ track) (htrackc : condPred track = false)
    (hcar : ∀ p ∈ splitStr 95 car, condPred p = false)
    (hcond : cond = dryS ∨ cond = wetS)
    (hrank1 : 1 ≤ rank) (hrank9 : rank ≤ 9)
    (hlap : 0 ≤ lap) (hdate : (95 : ℕ) ∉ date) :
    parse_pb_filename (generate_pb_filename track car cond rank lap date) =
      some ⟨track, car, cond, rank, (pyRound (lap * 1000) : ℚ) / 1000,
        date.map (fun c => if c = 46 then 45 else c)⟩ ∧
    |(pyRound (lap * 1000) : ℚ) / 1000 - lap| ≤ 1 / 2000 := by
  obtain ⟨hfmt95, hmatch⟩ := format_lap_props lap hlap
  obtain ⟨carParts, hcp⟩ : ∃ l, splitStr 95 car = l := ⟨_, rfl⟩
  obtain ⟨dateF, hdF⟩ :
      ∃ d, date.map (fun c => if c = 46 then 45 else c) = d := ⟨_, rfl⟩
  obtain ⟨fmt, hfmt⟩ : ∃ f, format_lap_time_filename lap = f := ⟨_, rfl⟩
  obtain ⟨rsfx, hrs⟩ : ∃ r, rankSuffix rank = r := ⟨_, rfl⟩
  rw [hcp] at hcar
  rw [hfmt] at hfmt95 hmatch
  have hcond95 : (95 : ℕ) ∉ cond := by
    rcases hcond with rfl | rfl <;> decide
  have hcondT : condPred cond = true := by
    rcases hcond with rfl | rfl <;> decide
  have hlower : lowerStr cond = cond := by
    rcases hcond with rfl | rfl <;> decide
  have hrsfx95 : (95 : ℕ) ∉ rsfx := by
    rw [← hrs]
    unfold rankSuffix
    split_ifs
    · decide
    · decide
    · decide
    · intro hmem
      rcases List.mem_append.mp hmem with h | h
      · have := natToDigits_digits rank 95 h
        omega
      · simp at h
  have hparseRank : parseRank rsfx = some rank := by
    rw [← hrs]
    unfold rankSuffix
    split_ifs with h1 h2 h3
    · subst h1
      decide
    · subst h2
      decide
    · subst h3
      decide
    · rw [natToDigits, dif_pos (by omega : rank < 10), List.singleton_append]
      show (if 48 ≤ 48 + rank ∧ 48 + rank ≤ 57 then some (48 + rank - 48)
        else none) = some rank
      rw [if_pos (by omega)]
      congr 1
      omega
  have hdateF95 : (95 : ℕ) ∉ dateF := by
    rw [← hdF]
    intro hmem
    rcases List.mem_map.mp hmem with ⟨c, hc, hce⟩
    by_cases h46 : c = 46
    · rw [if_pos h46] at hce
      omega
    · rw [if_neg h46] at hce
      exact hdate (hce ▸ hc)
  have hcarne : carParts ≠ [] := hcp ▸ splitStr_ne_nil 95 car
  have hgen : generate_pb_filename track car cond rank lap date =
      (track ++ 95 :: (car ++ 95 :: (cond ++ 95 :: (rsfx ++ 95 ::
        (fmt ++ 95 :: dateF))))) ++ extLd := by
    unfold generate_pb_filename
    rw [hfmt, hrs, hdF]
    simp [List.append_assoc]
  have hsplit : splitStr 95 (dropExt
      (generate_pb_filename track car cond rank lap date)) =
      (track :: carParts) ++ cond :: rsfx :: fmt :: [dateF] := by
    rw [hgen, dropExt_ld, splitStr_append_sep 95 track _ htrack,
      splitStr_append_sep_gen 95 car _,
      splitStr_append_sep 95 cond _ hcond95,
      splitStr_append_sep 95 rsfx _ hrsfx95,
      splitStr_append_sep 95 fmt _ hfmt95,
      splitStr_no_sep 95 dateF hdateF95, hcp]
    rfl
  have hlen : ¬ ((track :: carParts) ++
      cond :: rsfx :: fmt :: [dateF]).length < 6 := by
    have h1 : 1 ≤ carParts.length := List.length_pos.mpr hcarne
    simp [List.length_append]
    omega
  have hfind : findIdxS condPred
      ((track :: carParts) ++ cond :: rsfx :: fmt :: [dateF]) =
      some (track :: carParts).length := by
    apply findIdxS_spec
    · intro y hy
      rcases List.mem_cons.mp hy with rfl | hy'
      · exact htrackc
      · exact hcar y hy'
    · exact hcondT
  have hn0 : nthStr ((track :: carParts) ++ cond :: rsfx :: fmt :: [dateF])
      (track :: carParts).length = some cond := by
    rw [nthStr_append_head]
    rfl
  have hn1 : nthStr ((track :: carParts) ++ cond :: rsfx :: fmt :: [dateF])
      ((track :: carParts).length + 1) = some rsfx := by
    rw [nthStr_append_at]
    rfl
  have hn2 : nthStr ((track :: carParts) ++ cond :: rsfx :: fmt :: [dateF])
      ((track :: carParts).length + 2) = some fmt := by
    rw [nthStr_append_at]
    rfl
  have hlast : (((track :: carParts) ++
      cond :: rsfx :: fmt :: [dateF]).getLastD []) = dateF := by
    rw [show (track :: carParts) ++ cond :: rsfx :: fmt :: [dateF] =
      ((track :: carParts) ++ [cond, rsfx, fmt]) ++ [dateF] by simp]
    exact getLastD_concat_any _ _ _
  constructor
  · rw [hdF]
    simp only [parse_pb_filename, hsplit, parseAfterIdx]
    rw [if_neg hlen, hfind]
    simp only [hn0, hn1, hn2, hparseRank, hmatch]
    congr 1
    have hdrop : (((track :: carParts) ++
        cond :: rsfx :: fmt :: [dateF]).drop 1) =
        carParts ++ cond :: rsfx :: fmt :: [dateF] := rfl
    have htake : (carParts ++ cond :: rsfx :: fmt :: [dateF]).take
        ((track :: carParts).length - 1) = carParts := by
      rw [show (track :: carParts).length - 1 = carParts.length by simp]
      exact List.take_left carParts _
    rw [hdrop, htake, hlast]
    simp only [List.cons_append, List.headD_cons]
    rw [← hcp, join_split, hlower]
  · have herr := pyRound_err (lap * 1000)
    rw [abs_le] at herr ⊢
    constructor <;> [linarith [herr.1]; linarith [herr.2]]

/-- Witness for C2: the amended round trip at a concrete instance — track
`mount`, car `ferrari`, condition `dry`, rank 2, lap time 100.75 s, date
`2024.01.02`. -/
theorem C2_wit :
    parse_pb_filename (generate_pb_filename mountT carC dryS 2
        ((403 : ℚ) / 4) dateD) =
      some ⟨mountT, carC, dryS, 2,
        (pyRound (((403 : ℚ) / 4) * 1000) : ℚ) / 1000,
        dateD.map (fun c => if c = 46 then 45 else c)⟩ ∧
    |(pyRound (((403 : ℚ) / 4) * 1000) : ℚ) / 1000 - (403 : ℚ) / 4| ≤
      1 / 2000 :=
  C2_thm mountT carC dryS 2 ((403 : ℚ) / 4) dateD (by decide) (by decide)
    (by decide) (Or.inl rfl) (by decide) (by decide) (by norm_num) (by decide)
